import Mathlib

/-!
Verification of the utility library in `src/main.js`: a shallow embedding of
its eight functions (deepClone, debounce, flatten, deepEqual, toCamelCase,
memoize, parseQuery, curry) together with proofs about them.

Modelling conventions:
* JavaScript values are `JSVal`: primitives (`null`, `undefined`, booleans,
  integer numbers, strings, functions identified by an id) and references
  into an explicit heap (`Heap`), a list of objects indexed by address.
  Object identity is heap-address identity; `WeakMap` and `Map` are
  association lists.
* Functions whose JS originals can recurse through cyclic object graphs
  (`deepClone`, `deepEqual`) take a fuel argument and return `none` when
  the fuel runs out; termination of the original on an input is rendered
  as the result being fuel-independent from some fuel on.
* `throw` (only `decodeURIComponent`'s URIError matters here) is rendered
  as `Option.none`.
-/

/-! ## Generic helpers (association lists, character splitting) -/

/-- First-match association-list lookup (models `Map.get` / `WeakMap.get`
and JS property reads). -/
def lookupAssoc {α β : Type} [DecidableEq α] : List (α × β) → α → Option β
  | [], _ => none
  | (k, v) :: r, k0 => if k = k0 then some v else lookupAssoc r k0

/-- Assignment into an association list: overwrite the first binding of the
key in place, else append (models `obj[k] = v` / `Map.set`). -/
def setAssoc {α β : Type} [DecidableEq α] : List (α × β) → α → β → List (α × β)
  | [], k, v => [(k, v)]
  | (k1, v1) :: r, k, v => if k1 = k then (k, v) :: r else (k1, v1) :: setAssoc r k v

/-- Split a character list at every occurrence of `c`, JS `String.split`
semantics: the result is never empty, and separators at the ends or adjacent
separators produce empty chunks (`"".split` gives `[""]`). -/
def splitOnChar (c : Char) : List Char → List (List Char)
  | [] => [[]]
  | x :: xs =>
    match splitOnChar c xs with
    | [] => [[]]
    | h :: t => if x = c then [] :: h :: t else (x :: h) :: t

/-- Boolean no-duplicates check for key lists. -/
def nodupKeys {α : Type} [DecidableEq α] : List α → Bool
  | [] => true
  | k :: ks => !ks.contains k && nodupKeys ks

/-! ## The JS value and heap model -/

/-- JS primitive values (everything `deepClone`'s `typeof obj !== 'object'`
early return covers, plus `null`). Numbers are modelled as integers and
functions by an identity token. -/
inductive JSPrim : Type where
  | null
  | undef
  | bool (b : Bool)
  | num (n : Int)
  | str (s : String)
  | fn (id : Nat)
deriving DecidableEq, Repr

/-- A JS value: a primitive or a reference to a heap object. -/
inductive JSVal : Type where
  | prim (p : JSPrim)
  | ref (a : Nat)
deriving DecidableEq, Repr

/-- The concrete kind of a heap object: a `Date` (holding its instant), an
`Array`, a `RegExp` (holding its canonical `toString` form), or a plain
object with a prototype identified by `protoId`. The kind determines the
constructor and the `instanceof` checks of the source. -/
inductive ObjKind : Type where
  | date (t : Int)
  | array
  | regexp (s : String)
  | plain (protoId : Nat)
deriving DecidableEq, Repr

/-- A heap object: its kind together with its own enumerable properties in
insertion order. -/
structure JSObj : Type where
  kind : ObjKind
  props : List (String × JSVal)
deriving DecidableEq, Repr

/-- The heap: object at address `a` is entry `a` of the list. -/
abbrev Heap : Type := List JSObj

/-- Dereference an address. -/
def getObj (h : Heap) (a : Nat) : Option JSObj := h[a]?

/-- Property read `o[k]`; a missing key reads as `undefined`. -/
def getPropD (ps : List (String × JSVal)) (k : String) : JSVal :=
  (lookupAssoc ps k).getD (JSVal.prim JSPrim.undef)

/-- Property write `h[a][k] = v` (no-op on a dangling address). -/
def setProp (h : Heap) (a : Nat) (k : String) (v : JSVal) : Heap :=
  match h[a]? with
  | some o => h.set a ⟨o.kind, setAssoc o.props k v⟩
  | none => h

/-- State threaded through one `deepClone` call: the heap and the `WeakMap`
from original address to clone address. -/
structure CSt : Type where
  heap : Heap
  hash : List (Nat × Nat)
deriving DecidableEq, Repr

/-! ## deepClone (src/main.js lines 2-21) -/

/-- The `for key in obj` body of `deepClone`: clone each own enumerable
property of the original (given by `ps`) into the clone at `caddr`, using the
one-step-smaller cloner `rec` for the values. -/
def clonePropsWith (rec : CSt → JSVal → Option (JSVal × CSt)) :
    List (String × JSVal) → Nat → CSt → Option CSt
  | [], _, st => some st
  | (k, v) :: rest, caddr, st =>
    match rec st v with
    | none => none
    | some (cv, st1) => clonePropsWith rec rest caddr ⟨setProp st1.heap caddr k cv, st1.hash⟩

/-- `deepClone(obj, hash)`, fuel-indexed. A primitive (`obj === null ||
typeof obj !== 'object'`) is returned unchanged; a visited object returns its
registered clone; otherwise an empty clone of the same kind (`new Date(obj)`,
`[]`, `new RegExp(obj)`, `Object.create(Object.getPrototypeOf(obj))`) is
allocated, registered in the hash before recursing, and the own enumerable
properties are cloned into it. -/
def deepClone : Nat → CSt → JSVal → Option (JSVal × CSt)
  | 0, _, _ => none
  | _ + 1, st, JSVal.prim p => some (JSVal.prim p, st)
  | fuel + 1, st, JSVal.ref a =>
    match lookupAssoc st.hash a with
    | some c => some (JSVal.ref c, st)
    | none =>
      match getObj st.heap a with
      | none => none
      | some obj =>
        let caddr := st.heap.length
        let st1 : CSt := ⟨st.heap ++ [⟨obj.kind, []⟩], (a, caddr) :: st.hash⟩
        match clonePropsWith (deepClone fuel) obj.props caddr st1 with
        | none => none
        | some st2 => some (JSVal.ref caddr, st2)

/-! ## deepEqual (src/main.js lines 40-57) -/

/-- Constructor comparison `a.constructor === b.constructor`: kinds must
match, and plain objects must have the same prototype. -/
def ctorEq : ObjKind → ObjKind → Bool
  | ObjKind.date _, ObjKind.date _ => true
  | ObjKind.array, ObjKind.array => true
  | ObjKind.regexp _, ObjKind.regexp _ => true
  | ObjKind.plain p, ObjKind.plain q => p = q
  | _, _ => false

/-- The `for (const key of keysA)` loop of `deepEqual`: for each key, require
membership in `keysB` and recursive equality of the two property values,
short-circuiting on the first failure. -/
def eqKeysWith (rec : JSVal → JSVal → Option Bool)
    (psa psb : List (String × JSVal)) : List String → Option Bool
  | [] => some true
  | k :: ks =>
    if (psb.map Prod.fst).contains k then
      match rec (getPropD psa k) (getPropD psb k) with
      | none => none
      | some false => some false
      | some true => eqKeysWith rec psa psb ks
    else some false

/-- `deepEqual(a, b)`, fuel-indexed, mirroring the source line by line:
identity first; any primitive (null / non-object) gives `false`; then the
constructor check; Dates compare by instant, RegExps by canonical string;
otherwise `Object.keys` counts must agree and the key loop must succeed. -/
def deepEqual : Nat → Heap → JSVal → JSVal → Option Bool
  | 0, _, _, _ => none
  | fuel + 1, h, a, b =>
    if a = b then some true
    else
      match a, b with
      | JSVal.prim _, _ => some false
      | _, JSVal.prim _ => some false
      | JSVal.ref ra, JSVal.ref rb =>
        match getObj h ra, getObj h rb with
        | some oa, some ob =>
          if ctorEq oa.kind ob.kind then
            match oa.kind, ob.kind with
            | ObjKind.date t1, ObjKind.date t2 => some (t1 = t2)
            | ObjKind.regexp s1, ObjKind.regexp s2 => some (s1 = s2)
            | _, _ =>
              let ka := oa.props.map Prod.fst
              let kb := ob.props.map Prod.fst
              if ka.length = kb.length then
                eqKeysWith (deepEqual fuel h) oa.props ob.props ka
              else some false
          else some false
        | _, _ => none

/-! ## flatten (src/main.js lines 33-37) -/

/-- A possibly-nested array element: a non-array value or a nested array. -/
inductive Nested (α : Type) : Type where
  | elem (a : α)
  | arr (xs : List (Nested α))
deriving Repr

/-- The `arr.reduce((flat, toFlatten) => flat.concat(...), [])` of `flatten`:
a left fold carrying the accumulated flat array, concatenating either the
recursively flattened nested array or the single non-array element. -/
def flattenAux {α : Type} : List (Nested α) → List (Nested α) → List (Nested α)
  | [], flat => flat
  | Nested.elem a :: xs, flat => flattenAux xs (flat ++ [Nested.elem a])
  | Nested.arr ys :: xs, flat => flattenAux xs (flat ++ flattenAux ys [])
termination_by l _ => sizeOf l
decreasing_by
  all_goals (simp; try omega)

/-- `flatten(arr)`. -/
def flatten {α : Type} (arr : List (Nested α)) : List (Nested α) :=
  flattenAux arr []

/-- Modelled from the spec wording of the Flatten contract: the non-sequence
elements found by fully recursively unnesting the input, in left-to-right
depth-first order. Used to state claim C9 against `flatten`. -/
def dfsElems {α : Type} : List (Nested α) → List α
  | [] => []
  | Nested.elem a :: xs => a :: dfsElems xs
  | Nested.arr ys :: xs => dfsElems ys ++ dfsElems xs
termination_by l => sizeOf l
decreasing_by
  all_goals (simp; try omega)

/-! ## toCamelCase (src/main.js lines 60-64) -/

/-- The character class `[-_\s]` of the camel-case regex: hyphen, underscore
or JS whitespace (`\s`: space, tab, line feed, vertical tab, form feed,
carriage return, and the Unicode space/line separators JS includes). -/
def isDelim (c : Char) : Bool :=
  c = '-' || c = '_' || c.toNat = 0x20 || c.toNat = 0x09 || c.toNat = 0x0a ||
  c.toNat = 0x0b || c.toNat = 0x0c || c.toNat = 0x0d || c.toNat = 0xa0 ||
  c.toNat = 0x1680 || (0x2000 <= c.toNat && c.toNat <= 0x200a) ||
  c.toNat = 0x2028 || c.toNat = 0x2029 || c.toNat = 0x202f ||
  c.toNat = 0x205f || c.toNat = 0x3000 || c.toNat = 0xfeff

/-- The global replace of `/[-_\s]+(.)?/g`: each maximal run of delimiter
characters is removed together with the character following it, which is
uppercased; a run at the end of the string is removed with nothing added.
Processing one character at a time is equivalent because the `+` is greedy.
-/
def camelLoop : List Char → List Char
  | [] => []
  | [c] => if isDelim c then [] else [c]
  | c :: d :: rest =>
    if isDelim c then
      if isDelim d then camelLoop (d :: rest)
      else Char.toUpper d :: camelLoop rest
    else c :: camelLoop (d :: rest)

/-- `toCamelCase(str)`: run the delimiter replace, then lowercase the first
character of the result (the `/^./` replace; the result never starts with a
line terminator, so the dot always matches a nonempty result). -/
def toCamelCase (s : List Char) : List Char :=
  match camelLoop s with
  | [] => []
  | c :: cs => Char.toLower c :: cs

/-! ## memoize (src/main.js lines 67-76) -/

/-- `JSON.stringify` of one primitive argument in array position: `undefined`
and functions serialize as `null`; strings are quoted (escaping of exotic
characters inside the string is not modelled). -/
def jsonOfPrim : JSPrim → String
  | JSPrim.null => "null"
  | JSPrim.undef => "null"
  | JSPrim.bool b => if b then "true" else "false"
  | JSPrim.num n => toString n
  | JSPrim.str s => "\"" ++ s ++ "\""
  | JSPrim.fn _ => "null"

/-- `JSON.stringify(args)`: the cache key of `memoize`. -/
def jsonStringifyArgs (args : List JSPrim) : String :=
  "[" ++ String.intercalate "," (args.map jsonOfPrim) ++ "]"

/-- One call of the wrapper returned by `memoize(fn)`. The underlying
function is modelled as `f`, indexed by how many times it has been invoked so
far (`count`), so that a non-deterministic or effectful `fn` is a function
whose value may depend on the invocation index. Returns the result, the new
cache, and the new invocation count. -/
def memoCall (f : Nat → List JSPrim → JSPrim) (cache : List (String × JSPrim))
    (count : Nat) (args : List JSPrim) : JSPrim × List (String × JSPrim) × Nat :=
  let key := jsonStringifyArgs args
  match lookupAssoc cache key with
  | some v => (v, cache, count)
  | none =>
    let r := f count args
    (r, cache ++ [(key, r)], count + 1)

/-! ## parseQuery (src/main.js lines 79-91) -/

/-- Hex digit value, as accepted inside a percent escape. -/
def hexDigit (c : Char) : Option Nat :=
  if '0' ≤ c ∧ c ≤ '9' then some (c.toNat - '0'.toNat)
  else if 'a' ≤ c ∧ c ≤ 'f' then some (c.toNat - 'a'.toNat + 10)
  else if 'A' ≤ c ∧ c ≤ 'F' then some (c.toNat - 'A'.toNat + 10)
  else none

/-- First phase of `decodeURIComponent`: scan the string into units, each a
plain character or the byte value of a `%XX` escape; a `%` not followed by
two hex digits is a URIError (`none`). -/
def percentUnits : List Char → Option (List (Sum Char Nat))
  | [] => some []
  | c :: rest =>
    if c = '%' then
      match rest with
      | c1 :: c2 :: rest2 =>
        match hexDigit c1, hexDigit c2 with
        | some h1, some h2 => (percentUnits rest2).map (Sum.inr (16 * h1 + h2) :: ·)
        | _, _ => none
      | _ => none
    else (percentUnits rest).map (Sum.inl c :: ·)

/-- Second phase of `decodeURIComponent`: plain characters pass through; an
escaped byte below 0x80 decodes to that character; a larger byte must be the
lead of a valid UTF-8 sequence whose continuation bytes are escaped bytes
immediately following, rejecting stray or missing continuation bytes,
overlong encodings, surrogates and code points above 0x10FFFF (ECMA-262
Decode). -/
def utf8Assemble : List (Sum Char Nat) → Option (List Char)
  | [] => some []
  | Sum.inl c :: rest => (utf8Assemble rest).map (c :: ·)
  | Sum.inr b1 :: rest =>
    if b1 < 0x80 then (utf8Assemble rest).map (Char.ofNat b1 :: ·)
    else if b1 < 0xc2 then none
    else if b1 < 0xe0 then
      match rest with
      | Sum.inr b2 :: rest2 =>
        if 0x80 ≤ b2 ∧ b2 < 0xc0 then
          (utf8Assemble rest2).map (Char.ofNat ((b1 - 0xc0) * 0x40 + (b2 - 0x80)) :: ·)
        else none
      | _ => none
    else if b1 < 0xf0 then
      match rest with
      | Sum.inr b2 :: Sum.inr b3 :: rest2 =>
        if ((b1 = 0xe0 ∧ 0xa0 ≤ b2 ∧ b2 < 0xc0) ∨
            (b1 = 0xed ∧ 0x80 ≤ b2 ∧ b2 < 0xa0) ∨
            (b1 ≠ 0xe0 ∧ b1 ≠ 0xed ∧ 0x80 ≤ b2 ∧ b2 < 0xc0)) ∧
            (0x80 ≤ b3 ∧ b3 < 0xc0) then
          (utf8Assemble rest2).map
            (Char.ofNat ((b1 - 0xe0) * 0x1000 + (b2 - 0x80) * 0x40 + (b3 - 0x80)) :: ·)
        else none
      | _ => none
    else if b1 < 0xf5 then
      match rest with
      | Sum.inr b2 :: Sum.inr b3 :: Sum.inr b4 :: rest2 =>
        if ((b1 = 0xf0 ∧ 0x90 ≤ b2 ∧ b2 < 0xc0) ∨
            (b1 = 0xf4 ∧ 0x80 ≤ b2 ∧ b2 < 0x90) ∨
            (b1 ≠ 0xf0 ∧ b1 ≠ 0xf4 ∧ 0x80 ≤ b2 ∧ b2 < 0xc0)) ∧
            (0x80 ≤ b3 ∧ b3 < 0xc0) ∧ (0x80 ≤ b4 ∧ b4 < 0xc0) then
          (utf8Assemble rest2).map
            (Char.ofNat ((b1 - 0xf0) * 0x40000 + (b2 - 0x80) * 0x1000 +
              (b3 - 0x80) * 0x40 + (b4 - 0x80)) :: ·)
        else none
      | _ => none
    else none

/-- `decodeURIComponent`, per the ECMA-262 Decode algorithm, as the two
phases composed. A URIError is `none`. -/
def decodeURIComponentL (l : List Char) : Option (List Char) :=
  match percentUnits l with
  | none => none
  | some us => utf8Assemble us

/-- The `queryString.startsWith('?') ? queryString.slice(1) : queryString`
step. -/
def stripQM : List Char → List Char
  | '?' :: r => r
  | s => s

/-- One iteration of the `forEach` in `parseQuery`: destructure
`pair.split('=')` as `[key, value]` (so `key` is the text before the first
`=`, `value` the text between the first and second `=`, absent when there is
no `=`), skip a falsy (empty) key, otherwise decode the key, decode the value
when it is truthy (nonempty) and use `''` otherwise, and assign. -/
def addPair (params : List (List Char × List Char)) (pair : List Char) :
    Option (List (List Char × List Char)) :=
  let parts := splitOnChar '=' pair
  let key := parts.headD []
  let value : Option (List Char) := parts[1]?
  if key = [] then some params
  else
    match decodeURIComponentL key with
    | none => none
    | some dk =>
      match value with
      | some v =>
        if v = [] then some (setAssoc params dk [])
        else
          match decodeURIComponentL v with
          | none => none
          | some dv => some (setAssoc params dk dv)
      | none => some (setAssoc params dk [])

/-- The decode-success condition of one pair: exactly the
`decodeURIComponent` calls `addPair` makes succeed. A pair with an empty key
makes none; otherwise the key is decoded, and the value is decoded only when
present and nonempty (a falsy value short-circuits to `''`). -/
def pairDecodes (pair : List Char) : Bool :=
  let parts := splitOnChar '=' pair
  let key := parts.headD []
  if key = [] then true
  else
    match decodeURIComponentL key with
    | none => false
    | some _ =>
      match parts[1]? with
      | some v => if v = [] then true else (decodeURIComponentL v).isSome
      | none => true

/-- `parseQuery(queryString)`: strip one leading question mark, split on
ampersands, and fold the pairs into the parameter mapping. `none` models a
thrown URIError. -/
def parseQuery (s : List Char) : Option (List (List Char × List Char)) :=
  (splitOnChar '&' (stripQM s)).foldlM addPair []

/-! ## curry (src/main.js lines 94-104) -/

/-- One call of a curried function or of one of its partial applications:
with accumulated arguments `acc` and new arguments `newArgs`, either invoke
the underlying function (cumulative count reached the declared arity) or
return the enlarged accumulator standing for the returned callable. -/
def curryApply {α β : Type} (f : List α → β) (arity : Nat) (acc newArgs : List α) :
    Sum β (List α) :=
  let args := acc ++ newArgs
  if arity ≤ args.length then Sum.inl (f args) else Sum.inr args

/-- A chain of calls `g(c₁)(c₂)…(cₙ)` against a curried `f` of the given
declared arity, starting from accumulated arguments `acc`: `some` result when
the final call triggers the invocation, `none` when the chain ends on a
partial application or tries to keep calling a non-function result. -/
def curryChain {α β : Type} (f : List α → β) (arity : Nat) :
    List α → List (List α) → Option β
  | _, [] => none
  | acc, c :: cs =>
    match curryApply f arity acc c with
    | Sum.inl r => match cs with | [] => some r | _ => none
    | Sum.inr acc1 => curryChain f arity acc1 cs

/-- The demo's `(a, b, c) => a + b + c` as a function of its argument list
(missing arguments never occur because curry invokes it only at arity 3). -/
def addFirst3 (l : List Int) : Int :=
  l.headD 0 + (l.drop 1).headD 0 + (l.drop 2).headD 0

/-! ## debounce (src/main.js lines 24-30) -/

/-- Trace semantics of `debounce(func, delay)`: given the calls to the
wrapper as a list of (time, argument) pairs in chronological order, return
the invocations of `func` that actually fire, each as (fire time, argument).
A call schedules `func` at its time plus `delay` and `clearTimeout`s the
previously scheduled invocation, so a scheduled invocation fires exactly when
no later call happens strictly before its fire time. -/
def debounceFires {α : Type} (delay : Nat) : List (Nat × α) → List (Nat × α)
  | [] => []
  | (t, a) :: rest =>
    match rest with
    | [] => [(t + delay, a)]
    | (t1, _) :: _ =>
      (if t1 < t + delay then [] else [(t + delay, a)]) ++ debounceFires delay rest

/-! ## Acyclic plain values as trees, and the representation relation -/

/-- An acyclic plain JS value, as a tree: a primitive, a `Date`, a `RegExp`,
an array of plain values, or a plain object (with its prototype id) whose own
enumerable properties hold plain values. -/
inductive JSTree : Type where
  | prim (p : JSPrim)
  | date (t : Int)
  | regexp (s : String)
  | arr (elems : List JSTree)
  | obj (protoId : Nat) (props : List (String × JSTree))
deriving Repr

/-- The own enumerable key names of an array of length `n`: the decimal index
strings. -/
def idxKeys (n : Nat) : List String := (List.range n).map (fun i => toString i)

/-- An array's elements as keyed properties. -/
def idxProps (ts : List JSTree) : List (String × JSTree) :=
  (idxKeys ts.length).zip ts

mutual

/-- Nesting depth of a tree value (primitive leaves have depth 0). -/
def treeDepth : JSTree → Nat
  | JSTree.prim _ => 0
  | JSTree.date _ => 0
  | JSTree.regexp _ => 0
  | JSTree.arr ts => listDepth ts + 1
  | JSTree.obj _ kts => propsDepth kts + 1

/-- Depth of a list of element trees. -/
def listDepth : List JSTree → Nat
  | [] => 0
  | t :: ts => max (treeDepth t) (listDepth ts)

/-- Depth of a keyed property list of trees. -/
def propsDepth : List (String × JSTree) → Nat
  | [] => 0
  | (_, t) :: r => max (treeDepth t) (propsDepth r)

end

mutual

/-- Well-formedness of a tree value: at every object node the own enumerable
key names are pairwise distinct, as they are for every JS object. -/
def wfT : JSTree → Bool
  | JSTree.prim _ => true
  | JSTree.date _ => true
  | JSTree.regexp _ => true
  | JSTree.arr ts => nodupKeys (idxKeys ts.length) && wfL ts
  | JSTree.obj _ kts => nodupKeys (kts.map Prod.fst) && wfP kts

/-- Well-formedness of a list of element trees. -/
def wfL : List JSTree → Bool
  | [] => true
  | t :: ts => wfT t && wfL ts

/-- Well-formedness of a keyed property list of trees. -/
def wfP : List (String × JSTree) → Bool
  | [] => true
  | (_, t) :: r => wfT t && wfP r

end

mutual

/-- `repT h v t addrs`: in heap `h`, the value `v` represents the acyclic
plain value `t`, the derivation passing through the heap addresses `addrs`
(each object node contributes its address, which must not recur below it, so
the reachable graph is acyclic; sibling subgraphs use disjoint addresses). -/
inductive repT : Heap → JSVal → JSTree → List Nat → Prop where
  | prim : ∀ h p, repT h (JSVal.prim p) (JSTree.prim p) []
  | date : ∀ h a t, getObj h a = some ⟨ObjKind.date t, []⟩ →
      repT h (JSVal.ref a) (JSTree.date t) [a]
  | regexp : ∀ h a s, getObj h a = some ⟨ObjKind.regexp s, []⟩ →
      repT h (JSVal.ref a) (JSTree.regexp s) [a]
  | arr : ∀ h a ts ps as1, getObj h a = some ⟨ObjKind.array, ps⟩ →
      repProps h ps (idxProps ts) as1 → a ∉ as1 →
      repT h (JSVal.ref a) (JSTree.arr ts) (a :: as1)
  | obj : ∀ h a pid kts ps as1, getObj h a = some ⟨ObjKind.plain pid, ps⟩ →
      repProps h ps kts as1 → a ∉ as1 →
      repT h (JSVal.ref a) (JSTree.obj pid kts) (a :: as1)

/-- `repProps h ps kts addrs`: the property list `ps` represents the keyed
tree list `kts` key by key, in order, through the addresses `addrs`. -/
inductive repProps : Heap → List (String × JSVal) → List (String × JSTree) → List Nat → Prop where
  | nil : ∀ h, repProps h [] [] []
  | cons : ∀ h k v t ps kts as1 as2, repT h v t as1 → repProps h ps kts as2 →
      (∀ x ∈ as1, x ∉ as2) → repProps h ((k, v) :: ps) ((k, t) :: kts) (as1 ++ as2)

end

/-- Well-formedness of a heap: every object's own enumerable key names are
pairwise distinct (true of every JS object). -/
def wfHeap (h : Heap) : Bool :=
  h.all (fun o => nodupKeys (o.props.map Prod.fst))

/-! ## Spec-side deep equality (claim C5's wording) -/

/-- Modelled from the spec wording of claim C5: the corresponding property
values of the two objects must all be recursively equal (no membership test
and no short-circuit here; membership is handled by the caller). -/
def eqKeysSpecWith (rec : JSVal → JSVal → Option Bool)
    (psa psb : List (String × JSVal)) : List String → Option Bool
  | [] => some true
  | k :: ks =>
    match rec (getPropD psa k) (getPropD psb k) with
    | none => none
    | some b =>
      match eqKeysSpecWith rec psa psb ks with
      | none => none
      | some b2 => some (b && b2)

/-- Modelled from the spec wording of claim C5: `a` and `b` are equal iff
they are identical, or are both non-null objects of the same concrete kind
(same constructor) — Dates equal iff same instant, RegExps equal iff same
canonical string — whose sets of own enumerable key names have equal
cardinality and identical membership and whose corresponding values are
recursively equal. Fuel-indexed like `deepEqual`. -/
def deepEqualSpec : Nat → Heap → JSVal → JSVal → Option Bool
  | 0, _, _, _ => none
  | fuel + 1, h, a, b =>
    if a = b then some true
    else
      match a, b with
      | JSVal.prim _, _ => some false
      | _, JSVal.prim _ => some false
      | JSVal.ref ra, JSVal.ref rb =>
        match getObj h ra, getObj h rb with
        | some oa, some ob =>
          if ctorEq oa.kind ob.kind then
            match oa.kind, ob.kind with
            | ObjKind.date t1, ObjKind.date t2 => some (t1 = t2)
            | ObjKind.regexp s1, ObjKind.regexp s2 => some (s1 = s2)
            | _, _ =>
              let ka := oa.props.map Prod.fst
              let kb := ob.props.map Prod.fst
              if ka.length = kb.length && ka.all (kb.contains ·) && kb.all (ka.contains ·) then
                eqKeysSpecWith (deepEqualSpec fuel h) oa.props ob.props ka
              else some false
          else some false
        | _, _ => none


/-! ## Concrete example values used by the claims, and clone correctness statements -/

def exNest : List (Nested Int) :=
  [Nested.elem 1, Nested.arr [Nested.elem 2, Nested.arr [Nested.elem 3, Nested.elem 4], Nested.elem 5]]

def addFn : Nat → List JSPrim → JSPrim
  | _, [JSPrim.num a, JSPrim.num b] => JSPrim.num (a + b)
  | _, _ => JSPrim.undef

def selfObj : JSObj := ⟨ObjKind.plain 0, [("self", JSVal.ref 0)]⟩

def exHeap : Heap :=
  [⟨ObjKind.plain 0, [("c", JSVal.prim (JSPrim.num 2))]⟩,
   ⟨ObjKind.plain 0, [("a", JSVal.prim (JSPrim.num 1)), ("b", JSVal.ref 0)]⟩,
   ⟨ObjKind.plain 0, [("c", JSVal.prim (JSPrim.num 2))]⟩,
   ⟨ObjKind.plain 0, [("a", JSVal.prim (JSPrim.num 1)), ("b", JSVal.ref 2)]⟩,
   ⟨ObjKind.plain 0, [("c", JSVal.prim (JSPrim.num 3))]⟩,
   ⟨ObjKind.plain 0, [("a", JSVal.prim (JSPrim.num 1)), ("b", JSVal.ref 4)]⟩,
   ⟨ObjKind.date 5, []⟩,
   ⟨ObjKind.date 5, []⟩]

/-- What a successful `deepClone` call guarantees: it returns a clone `w` and
a state whose heap only grew (existing entries unchanged), whose hash gained
exactly the visited original addresses, and in which `w` represents the same
tree at fresh addresses. -/
def CloneConcl (fuel : Nat) (t : JSTree) (v : JSVal) (addrs : List Nat) (st : CSt) : Prop :=
  ∃ w st2 addrs2,
    deepClone fuel st v = some (w, st2) ∧
    st.heap.length ≤ st2.heap.length ∧
    (∀ i, i < st.heap.length → getObj st2.heap i = getObj st.heap i) ∧
    (∀ x, x ∈ st2.hash.map Prod.fst ↔ x ∈ addrs ∨ x ∈ st.hash.map Prod.fst) ∧
    repT st2.heap w t addrs2 ∧
    (∀ a2 ∈ addrs2, st.heap.length ≤ a2)

/-- Correctness of `deepClone` at a given fuel, for every well-formed acyclic
input whose addresses are not yet in the hash. -/
def CloneOk (fuel : Nat) : Prop :=
  ∀ (t : JSTree) (v : JSVal) (addrs : List Nat) (st : CSt),
    treeDepth t < fuel → wfT t = true →
    repT st.heap v t addrs →
    (∀ a ∈ addrs, lookupAssoc st.hash a = none) →
    CloneConcl fuel t v addrs st

def exTree : JSTree := JSTree.obj 0 [("a", JSTree.prim (JSPrim.num 1))]

def exTreeHeap : Heap := [⟨ObjKind.plain 0, [("a", JSVal.prim (JSPrim.num 1))]⟩]

/-! ## Theorems -/

theorem flattenAux_append_arg {α : Type} (xs : List (Nested α)) :
    ∀ flat, flattenAux xs flat = flat ++ flattenAux xs [] := by
  induction xs with
  | nil => intro flat; simp [flattenAux]
  | cons x xs ih =>
    intro flat
    cases x with
    | elem a =>
      rw [show flattenAux (Nested.elem a :: xs) flat = flattenAux xs (flat ++ [Nested.elem a]) from by simp [flattenAux]]
      rw [show flattenAux (Nested.elem a :: xs) [] = flattenAux xs ([] ++ [Nested.elem a]) from by simp [flattenAux]]
      rw [ih (flat ++ [Nested.elem a]), ih ([] ++ [Nested.elem a])]
      simp
    | arr ys =>
      rw [show flattenAux (Nested.arr ys :: xs) flat = flattenAux xs (flat ++ flattenAux ys []) from by simp [flattenAux]]
      rw [show flattenAux (Nested.arr ys :: xs) [] = flattenAux xs ([] ++ flattenAux ys []) from by simp [flattenAux]]
      rw [ih (flat ++ flattenAux ys []), ih ([] ++ flattenAux ys [])]
      simp

theorem flatten_eq_dfs {α : Type} (xs : List (Nested α)) :
    flatten xs = (dfsElems xs).map Nested.elem := by
  induction xs using dfsElems.induct with
  | case1 => simp [flatten, flattenAux, dfsElems]
  | case2 a xs ih =>
    simp only [flatten] at *
    rw [show flattenAux (Nested.elem a :: xs) [] = flattenAux xs [Nested.elem a] from by simp [flattenAux]]
    rw [flattenAux_append_arg xs [Nested.elem a]]
    simp [dfsElems, ih]
  | case3 ys xs ih1 ih2 =>
    simp only [flatten] at *
    rw [show flattenAux (Nested.arr ys :: xs) [] = flattenAux xs ([] ++ flattenAux ys []) from by simp [flattenAux]]
    rw [flattenAux_append_arg xs ([] ++ flattenAux ys [])]
    simp [dfsElems, ih1, ih2]


/-- C9: `flatten` returns a flat sequence containing exactly the non-sequence
elements reached by fully recursive unnesting, in left-to-right depth-first
order; in particular `flatten [1,[2,[3,4],5]]` is `[1,2,3,4,5]` and
`flatten []` is `[]`. -/
theorem flatten_correct :
    (∀ (α : Type) (xs : List (Nested α)), flatten xs = (dfsElems xs).map Nested.elem) ∧
    flatten exNest = [Nested.elem 1, Nested.elem 2, Nested.elem 3, Nested.elem 4, Nested.elem 5] ∧
    flatten ([] : List (Nested Int)) = [] := by
  refine ⟨fun α xs => flatten_eq_dfs xs, ?_, ?_⟩
  · simp [exNest, flatten, flattenAux]
  · simp [flatten, flattenAux]

/-- C8: for `debounce(fn, delay)`, a burst of calls whose consecutive gaps
are all shorter than `delay` produces exactly one invocation of `fn`, firing
`delay` after the last call of the burst with that call's argument; each call
cancels the previously scheduled invocation, and a cancelled invocation never
fires (the trace semantics `debounceFires` admits no such firing). -/
theorem debounce_correct {α : Type} (D : Nat) (calls : List (Nat × α)) (hne : calls ≠ [])
    (hburst : List.Chain' (fun p q => p.1 < q.1 ∧ q.1 < p.1 + D) calls) :
    debounceFires D calls = [((calls.getLast hne).1 + D, (calls.getLast hne).2)] := by
  induction calls with
  | nil => exact absurd rfl hne
  | cons c rest ih =>
    cases rest with
    | nil => simp [debounceFires]
    | cons c1 rest1 =>
      have hchain := hburst
      rw [List.chain'_cons] at hchain
      obtain ⟨⟨h1, h2⟩, hrest⟩ := hchain
      have hne1 : c1 :: rest1 ≠ [] := by simp
      rw [List.getLast_cons hne1]
      obtain ⟨t, a⟩ := c
      obtain ⟨t1, b⟩ := c1
      simp only [debounceFires]
      rw [if_pos h2]
      simpa using ih hne1 hrest

theorem debounce_correct_w :
    debounceFires 10 [(0, "x"), (3, "y"), (5, "z")] = [(15, "z")] := by
  have h := debounce_correct 10 [(0, "x"), (3, "y"), (5, "z")] (by simp)
    (by simp [List.chain'_cons])
  simpa using h

theorem lookupAssoc_append {α β : Type} [DecidableEq α] (l1 l2 : List (α × β)) (k : α) :
    lookupAssoc (l1 ++ l2) k =
      match lookupAssoc l1 k with
      | some v => some v
      | none => lookupAssoc l2 k := by
  induction l1 with
  | nil => simp [lookupAssoc]
  | cons p r ih =>
    obtain ⟨k1, v1⟩ := p
    by_cases h : k1 = k <;> simp [lookupAssoc, h, ih]


/-- C6: for a `memoize(fn)` wrapper, the first call with an uncached key
computes and stores `fn`'s result, counting one invocation; a subsequent call
whose argument list has the same canonical serialization returns the stored
result with no further invocation and no cache change; in particular calling
the wrapped add twice with `(2, 3)` invokes it exactly once and both calls
return the identical cached result `5`. -/
theorem memoize_correct :
    (∀ (f : Nat → List JSPrim → JSPrim) cache count args,
      lookupAssoc cache (jsonStringifyArgs args) = none →
      memoCall f cache count args =
        (f count args, cache ++ [(jsonStringifyArgs args, f count args)], count + 1)) ∧
    (∀ (f : Nat → List JSPrim → JSPrim) cache count args1 args2,
      jsonStringifyArgs args1 = jsonStringifyArgs args2 →
      memoCall f (memoCall f cache count args1).2.1 (memoCall f cache count args1).2.2 args2 =
        ((memoCall f cache count args1).1,
         (memoCall f cache count args1).2.1,
         (memoCall f cache count args1).2.2)) ∧
    memoCall addFn [] 0 [JSPrim.num 2, JSPrim.num 3] =
      (JSPrim.num 5, [(jsonStringifyArgs [JSPrim.num 2, JSPrim.num 3], JSPrim.num 5)], 1) ∧
    memoCall addFn [(jsonStringifyArgs [JSPrim.num 2, JSPrim.num 3], JSPrim.num 5)] 1
        [JSPrim.num 2, JSPrim.num 3] =
      (JSPrim.num 5, [(jsonStringifyArgs [JSPrim.num 2, JSPrim.num 3], JSPrim.num 5)], 1) := by
  refine ⟨?_, ?_, ?_, ?_⟩
  · intro f cache count args hmiss
    simp [memoCall, hmiss]
  · intro f cache count args1 args2 hkey
    cases hc : lookupAssoc cache (jsonStringifyArgs args1) with
    | some v =>
      simp [memoCall, hc, ← hkey]
    | none =>
      simp only [memoCall, hc, ← hkey]
      rw [lookupAssoc_append]
      simp [hc, lookupAssoc]
  · rfl
  · simp [memoCall, lookupAssoc]

theorem memoize_correct_w :
    memoCall addFn [] 0 [JSPrim.num 2] =
      (addFn 0 [JSPrim.num 2], [] ++ [(jsonStringifyArgs [JSPrim.num 2], addFn 0 [JSPrim.num 2])], 0 + 1) :=
  memoize_correct.1 addFn [] 0 [JSPrim.num 2] rfl

theorem curryChain_reaches {α β : Type} (f : List α → β) (n : Nat) :
    ∀ (css : List (List α)) (acc : List α), css ≠ [] →
    n ≤ acc.length + css.flatten.length →
    (∀ k, k + 1 < css.length → acc.length + ((css.take (k + 1)).flatten).length < n) →
    curryChain f n acc css = some (f (acc ++ css.flatten)) := by
  intro css
  induction css with
  | nil => intro acc h; exact absurd rfl h
  | cons c cs ih =>
    intro acc _ htot hpre
    cases cs with
    | nil =>
      have hge : n ≤ acc.length + c.length := by simpa using htot
      simp [curryChain, curryApply, hge]
    | cons c1 cs1 =>
      have hlt : acc.length + c.length < n := by
        have := hpre 0 (by simp)
        simpa using this
      have hnotge : ¬ n ≤ acc.length + c.length := by omega
      have hstep : curryChain f n acc (c :: c1 :: cs1) = curryChain f n (acc ++ c) (c1 :: cs1) := by
        simp [curryChain, curryApply, hnotge]
      rw [hstep]
      have hrec := ih (acc ++ c) (by simp)
        (by simp at htot ⊢; omega)
        (by intro k hk
            have := hpre (k + 1) (by simpa using Nat.succ_lt_succ hk)
            simp at this ⊢
            omega)
      rw [hrec]
      simp

/-- C7: for `curry(fn)`, when the cumulative arguments supplied across
chained calls reach or exceed the declared arity at the final call (every
proper prefix of the chain staying below the arity), `fn` is invoked with all
accumulated arguments in call order and its result returned; before that each
call returns a new callable carrying the enlarged argument list; in
particular `f(1)(2)(3) = 6` and `f(1,2)(3) = 6` for the arity-3 sum. -/
theorem curry_correct :
    (∀ (α β : Type) (f : List α → β) (n : Nat) (css : List (List α)) (acc : List α),
      css ≠ [] → n ≤ acc.length + css.flatten.length →
      (∀ k, k + 1 < css.length → acc.length + ((css.take (k + 1)).flatten).length < n) →
      curryChain f n acc css = some (f (acc ++ css.flatten))) ∧
    curryChain addFirst3 3 [] [[1], [2], [3]] = some 6 ∧
    curryChain addFirst3 3 [] [[1, 2], [3]] = some 6 := by
  refine ⟨fun α β f n css acc h1 h2 h3 => curryChain_reaches f n css acc h1 h2 h3, by decide, by decide⟩

theorem curry_correct_w :
    curryChain addFirst3 3 [] [[1], [2], [3]] = some (addFirst3 ([] ++ [[1], [2], [3]].flatten)) :=
  curry_correct.1 Int Int addFirst3 3 [[1], [2], [3]] [] (by simp) (by simp)
    (by intro k hk
        rcases k with _ | _ | k
        · decide
        · decide
        · simp at hk; omega)

theorem splitOnChar_ne_nil (c : Char) (l : List Char) : splitOnChar c l ≠ [] := by
  cases l with
  | nil => simp [splitOnChar]
  | cons x xs =>
    simp only [splitOnChar]
    cases h : splitOnChar c xs with
    | nil => simp
    | cons hd tl => by_cases hx : x = c <;> simp [hx]

theorem splitOnChar_not_mem {c : Char} {l : List Char} (h : c ∉ l) :
    splitOnChar c l = [l] := by
  induction l with
  | nil => rfl
  | cons x xs ih =>
    have hx : x ≠ c := fun he => h (by simp [he])
    have hxs : c ∉ xs := fun hm => h (by simp [hm])
    simp only [splitOnChar, ih hxs]
    simp [hx]

theorem splitOnChar_append {c : Char} {xs : List Char} (ys : List Char) (h : c ∉ xs) :
    splitOnChar c (xs ++ c :: ys) = xs :: splitOnChar c ys := by
  induction xs with
  | nil =>
    simp only [List.nil_append, splitOnChar]
    cases hs : splitOnChar c ys with
    | nil => exact absurd hs (splitOnChar_ne_nil c ys)
    | cons hd tl => simp
  | cons x xs ih =>
    have hx : x ≠ c := fun he => h (by simp [he])
    have hxs : c ∉ xs := fun hm => h (by simp [hm])
    simp only [List.cons_append, splitOnChar]
    rw [show (xs.append (c :: ys)) = xs ++ c :: ys from rfl, ih hxs]
    simp [hx]

theorem mem_of_mem_splitOnChar {c : Char} {l p : List Char} {a : Char}
    (hp : p ∈ splitOnChar c l) (ha : a ∈ p) : a ∈ l := by
  induction l generalizing p with
  | nil =>
    simp [splitOnChar] at hp
    subst hp; simp at ha
  | cons x xs ih =>
    simp only [splitOnChar] at hp
    cases hs : splitOnChar c xs with
    | nil => exact absurd hs (splitOnChar_ne_nil c xs)
    | cons hd tl =>
      rw [hs] at hp
      by_cases hx : x = c
      · simp [hx] at hp
        rcases hp with hp | hp | hp
        · subst hp; simp at ha
        · exact List.mem_cons_of_mem x (ih (by rw [hs]; exact List.mem_cons_self hd tl) (hp ▸ ha))
        · exact List.mem_cons_of_mem x (ih (by rw [hs]; exact List.mem_cons_of_mem hd hp) ha)
      · simp [hx] at hp
        rcases hp with hp | hp
        · subst hp
          rcases List.mem_cons.mp ha with hh | hh
          · simp [hh]
          · exact List.mem_cons_of_mem x (ih (by rw [hs]; exact List.mem_cons_self hd tl) hh)
        · exact List.mem_cons_of_mem x (ih (by rw [hs]; exact List.mem_cons_of_mem hd hp) ha)

theorem percentUnits_cons (c : Char) (rest : List Char) (hc : c ≠ '%') :
    percentUnits (c :: rest) = (percentUnits rest).map (Sum.inl c :: ·) := by
  match rest with
  | [] => simp [percentUnits, hc]
  | [c1] => simp [percentUnits, hc]
  | c1 :: c2 :: rest2 => simp [percentUnits, hc]

theorem percentUnits_no_percent {l : List Char} (h : '%' ∉ l) :
    percentUnits l = some (l.map Sum.inl) := by
  induction l with
  | nil => rfl
  | cons x xs ih =>
    have hx : x ≠ '%' := fun he => h (by simp [he])
    have hxs : '%' ∉ xs := fun hm => h (by simp [hm])
    rw [percentUnits_cons x xs hx, ih hxs]
    rfl

theorem utf8Assemble_cons_inl (c : Char) (rest : List (Sum Char Nat)) :
    utf8Assemble (Sum.inl c :: rest) = (utf8Assemble rest).map (c :: ·) := rfl

theorem utf8Assemble_inl (l : List Char) :
    utf8Assemble (l.map Sum.inl) = some l := by
  induction l with
  | nil => rfl
  | cons x xs ih => rw [List.map_cons, utf8Assemble_cons_inl, ih]; rfl

theorem decode_no_percent {l : List Char} (h : '%' ∉ l) :
    decodeURIComponentL l = some l := by
  rw [decodeURIComponentL, percentUnits_no_percent h]
  exact utf8Assemble_inl l

theorem stripQM_id {s : List Char} (h : s.head? ≠ some '?') : stripQM s = s := by
  match s with
  | [] => rfl
  | c :: r =>
    have hc : c ≠ '?' := fun he => h (by simp [he])
    simp [stripQM, hc]

theorem addPair_single {k v1 : List Char} (v2 : List Char) (params : List (List Char × List Char))
    (hk : k ≠ []) (hke : '=' ∉ k) (hkp : '%' ∉ k)
    (hv1e : '=' ∉ v1) (hv1p : '%' ∉ v1) (hv1 : v1 ≠ []) :
    addPair params (k ++ ('=' :: (v1 ++ ('=' :: v2)))) = some (setAssoc params k v1) := by
  have hparts : splitOnChar '=' (k ++ ('=' :: (v1 ++ ('=' :: v2)))) =
      k :: v1 :: splitOnChar '=' v2 := by
    rw [splitOnChar_append (v1 ++ ('=' :: v2)) hke, splitOnChar_append v2 hv1e]
  simp only [addPair, hparts]
  simp [hk, hv1, decode_no_percent hkp, decode_no_percent hv1p]

theorem addPair_empty_key (params : List (List Char × List Char)) (v : List Char) :
    addPair params ('=' :: v) = some params := by
  simp only [addPair]
  cases hs : splitOnChar '=' v with
  | nil => exact absurd hs (splitOnChar_ne_nil '=' v)
  | cons hd tl => simp [splitOnChar, hs]

theorem addPair_no_eq (params : List (List Char × List Char)) {k : List Char}
    (hk : k ≠ []) (hke : '=' ∉ k) (hkp : '%' ∉ k) :
    addPair params k = some (setAssoc params k []) := by
  simp only [addPair, splitOnChar_not_mem hke]
  simp [hk, decode_no_percent hkp]

/-- C1 (amended): `parseQuery` destructures `pair.split('=')` as
`[key, value]`, so for a pair `k=v1=v2` the mapping assigns key `k` the
percent-decoded text strictly between the first and second `=` (that is,
`v1`), discarding everything after the second `=`; a pair with an empty or
missing key contributes nothing; and a pair with no `=` yields the empty
string as its value. -/
theorem parseQuery_splits_on_first_eq :
    (∀ k v1 v2 : List Char, k ≠ [] → '=' ∉ k → '&' ∉ k → '%' ∉ k → '?' ∉ k →
      '=' ∉ v1 → '&' ∉ v1 → '%' ∉ v1 → v1 ≠ [] → '&' ∉ v2 →
      parseQuery (k ++ ('=' :: (v1 ++ ('=' :: v2)))) = some [(k, v1)]) ∧
    (∀ v : List Char, '&' ∉ v → parseQuery ('=' :: v) = some []) ∧
    (∀ k : List Char, k ≠ [] → '=' ∉ k → '&' ∉ k → '%' ∉ k → '?' ∉ k →
      parseQuery k = some [(k, [])]) := by
  refine ⟨?_, ?_, ?_⟩
  · intro k v1 v2 hk hke hka hkp hkq hv1e hv1a hv1p hv1 hv2a
    have hhead : (k ++ ('=' :: (v1 ++ ('=' :: v2)))).head? ≠ some '?' := by
      cases k with
      | nil => exact absurd rfl hk
      | cons c k1 =>
        have : c ≠ '?' := fun he => hkq (by simp [he])
        simp [this]
    have hamp : '&' ∉ (k ++ ('=' :: (v1 ++ ('=' :: v2)))) := by
      simp only [List.mem_append, List.mem_cons]
      push_neg
      refine ⟨hka, by decide, hv1a, by decide, hv2a⟩
    rw [parseQuery, stripQM_id hhead, splitOnChar_not_mem hamp]
    simp only [List.foldlM]
    rw [addPair_single v2 [] hk hke hkp hv1e hv1p hv1]
    rfl
  · intro v hva
    have hhead : (('=' :: v) : List Char).head? ≠ some '?' := by simp
    have hamp : '&' ∉ ('=' :: v) := by
      simp only [List.mem_cons]
      push_neg
      exact ⟨by decide, hva⟩
    rw [parseQuery, stripQM_id hhead, splitOnChar_not_mem hamp]
    simp only [List.foldlM]
    rw [addPair_empty_key]
    rfl
  · intro k hk hke hka hkp hkq
    have hhead : k.head? ≠ some '?' := by
      cases k with
      | nil => exact absurd rfl hk
      | cons c k1 =>
        have : c ≠ '?' := fun he => hkq (by simp [he])
        simp [this]
    rw [parseQuery, stripQM_id hhead, splitOnChar_not_mem hka]
    simp only [List.foldlM]
    rw [addPair_no_eq [] hk hke hkp]
    rfl

/-- C1 counterexample: on the pair `k=v1=v2` the code maps `k` to `v1`,
not to the percent-decoded text of everything after the first `=` (which
would be `v1=v2`, a decodable string different from `v1`), refuting the
claim as stated. -/
theorem parseQuery_first_eq_cex :
    (parseQuery "k=v1=v2".toList).map (fun m => lookupAssoc m "k".toList) =
      some (some "v1".toList) ∧
    decodeURIComponentL "v1=v2".toList = some "v1=v2".toList ∧
    "v1".toList ≠ "v1=v2".toList := by
  refine ⟨by decide, by decide, by decide⟩

theorem parseQuery_splits_w :
    parseQuery ("k".toList ++ ('=' :: ("v1".toList ++ ('=' :: "v2".toList)))) =
      some [("k".toList, "v1".toList)] :=
  parseQuery_splits_on_first_eq.1 "k".toList "v1".toList "v2".toList (by decide) (by decide)
    (by decide) (by decide) (by decide) (by decide) (by decide) (by decide) (by decide) (by decide)

theorem addPair_isSome {params : List (List Char × List Char)} {p : List Char}
    (hp : '%' ∉ p) : (addPair params p).isSome := by
  simp only [addPair]
  cases hs : splitOnChar '=' p with
  | nil => exact absurd hs (splitOnChar_ne_nil '=' p)
  | cons hd tl =>
    by_cases hk : hd = []
    · simp [hk]
    · have hhd : '%' ∉ hd := fun hm =>
        hp (mem_of_mem_splitOnChar (by rw [hs]; exact List.mem_cons_self hd tl) hm)
      simp only [List.headD_cons, hk, if_neg hk, decode_no_percent hhd]
      cases tl with
      | nil => simp
      | cons v tl2 =>
        by_cases hv : v = []
        · simp [hv]
        · have hvp : '%' ∉ v := fun hm =>
            hp (mem_of_mem_splitOnChar
              (by rw [hs]; exact List.mem_cons_of_mem hd (List.mem_cons_self v tl2)) hm)
          simp [hv, decode_no_percent hvp]

theorem foldlM_addPair_isSome :
    ∀ (pairs : List (List Char)) (params : List (List Char × List Char)),
    (∀ p ∈ pairs, '%' ∉ p) → (pairs.foldlM addPair params).isSome := by
  intro pairs
  induction pairs with
  | nil => intro params _; simp [List.foldlM]
  | cons p ps ih =>
    intro params hall
    have h1 : (addPair params p).isSome := addPair_isSome (hall p (List.mem_cons_self p ps))
    obtain ⟨params1, hp1⟩ := Option.isSome_iff_exists.mp h1
    rw [List.foldlM_cons, hp1]
    exact ih params1 (fun q hq => hall q (List.mem_cons_of_mem p hq))

theorem stripQM_sublist_mem {s : List Char} {a : Char} (ha : a ∈ stripQM s) : a ∈ s := by
  cases s with
  | nil => exact ha
  | cons c r =>
    by_cases hc : c = '?'
    · subst hc
      exact List.mem_cons_of_mem _ ha
    · rwa [stripQM_id (by simp [hc])] at ha

theorem parseQuery_no_percent {s : List Char} (h : '%' ∉ s) : (parseQuery s).isSome := by
  rw [parseQuery]
  apply foldlM_addPair_isSome
  intro p hp hm
  exact h (stripQM_sublist_mem (mem_of_mem_splitOnChar hp hm))

theorem camelLoop_length (s : List Char) : (camelLoop s).length ≤ s.length := by
  induction s using camelLoop.induct with
  | case1 => simp [camelLoop]
  | case2 c h => simp [camelLoop, h]
  | case3 c h => simp [camelLoop, h]
  | case4 c d rest h1 h2 ih =>
    rw [show camelLoop (c :: d :: rest) = camelLoop (d :: rest) from by
      simp [camelLoop, h1, h2]]
    simpa using Nat.le_succ_of_le ih
  | case5 c d rest h1 h2 ih =>
    rw [show camelLoop (c :: d :: rest) = Char.toUpper d :: camelLoop rest from by
      simp [camelLoop, h1, h2]]
    simp only [List.length_cons]
    omega
  | case6 c d rest h1 ih =>
    rw [show camelLoop (c :: d :: rest) = c :: camelLoop (d :: rest) from by
      simp [camelLoop, h1]]
    simp only [List.length_cons] at ih ⊢
    omega

theorem addPair_isSome_iff (params : List (List Char × List Char)) (p : List Char) :
    (addPair params p).isSome = pairDecodes p := by
  cases hparts : splitOnChar '=' p with
  | nil => simp [addPair, pairDecodes, hparts]
  | cons key tl =>
    by_cases hk : key = []
    · simp [addPair, pairDecodes, hparts, hk]
    · cases hdk : decodeURIComponentL key with
      | none => simp [addPair, pairDecodes, hparts, hk, hdk]
      | some dk =>
        cases tl with
        | nil => simp [addPair, pairDecodes, hparts, hk, hdk]
        | cons v tl2 =>
          by_cases hve : v = []
          · simp [addPair, pairDecodes, hparts, hk, hdk, hve]
          · cases hdv : decodeURIComponentL v with
            | none => simp [addPair, pairDecodes, hparts, hk, hdk, hve, hdv]
            | some dv => simp [addPair, pairDecodes, hparts, hk, hdk, hve, hdv]

theorem foldlM_addPair_isSome_iff :
    ∀ (pairs : List (List Char)) (params : List (List Char × List Char)),
    (pairs.foldlM addPair params).isSome = true ↔ ∀ p ∈ pairs, pairDecodes p = true := by
  intro pairs
  induction pairs with
  | nil => intro params; simp [List.foldlM]
  | cons p ps ih =>
    intro params
    rw [List.foldlM_cons]
    cases ha : addPair params p with
    | none =>
      have hd : pairDecodes p = false := by
        rw [← addPair_isSome_iff params p, ha]
        rfl
      simp [hd]
    | some params1 =>
      have hd : pairDecodes p = true := by
        rw [← addPair_isSome_iff params p, ha]
        rfl
      have hred : (some params1 >>= fun init => List.foldlM addPair init ps) =
          List.foldlM addPair params1 ps := rfl
      rw [hred, ih params1]
      simp only [List.mem_cons]
      constructor
      · intro hall p1 hp1
        rcases hp1 with he | hm
        · subst he; exact hd
        · exact hall p1 hm
      · intro hall p1 hp1
        exact hall p1 (Or.inr hp1)

theorem parseQuery_isSome_iff (s : List Char) :
    (parseQuery s).isSome = true ↔
      ∀ p ∈ splitOnChar '&' (stripQM s), pairDecodes p = true := by
  rw [parseQuery]
  exact foldlM_addPair_isSome_iff (splitOnChar '&' (stripQM s)) []

/-- C2 (amended): `toCamelCase` never raises (it is a total function, whose
result is never longer than its input and is computed normally on the demo
string), and `parseQuery` returns a mapping exactly when every
`decodeURIComponent` call it makes succeeds — the decoded key of every
nonempty-key pair and the decoded value when present and nonempty — so in
particular it returns on every input with no percent sign and on the demo
query with its valid `%20` escape, but raises a URIError on an invalid
percent-encoding. -/
theorem parse_camel_total :
    (∀ s : List Char, (parseQuery s).isSome = true ↔
      ∀ p ∈ splitOnChar '&' (stripQM s), pairDecodes p = true) ∧
    (∀ s : List Char, '%' ∉ s → (parseQuery s).isSome) ∧
    (∀ s : List Char, (toCamelCase s).length ≤ s.length) ∧
    toCamelCase "hello-world_test".toList = "helloWorldTest".toList ∧
    parseQuery "?foo=1&bar=2&name=John%20Doe".toList =
      some [("foo".toList, "1".toList), ("bar".toList, "2".toList),
        ("name".toList, "John Doe".toList)] := by
  refine ⟨parseQuery_isSome_iff, fun s h => parseQuery_no_percent h, ?_, by decide, by decide⟩
  intro s
  rw [toCamelCase]
  cases hc : camelLoop s with
  | nil => simp
  | cons c cs =>
    have := camelLoop_length s
    rw [hc] at this
    simpa using this

/-- C2 counterexample: `parseQuery "a=%"` throws a URIError (modelled as
`none`) because `decodeURIComponent "%"` rejects the truncated escape, so
parseQuery does not return a result on every malformed input. -/
theorem parseQuery_percent_throws : parseQuery "a=%".toList = none := by decide

theorem parse_camel_total_w :
    (parseQuery "name=John%20Doe".toList).isSome = true ∧
    (parseQuery "a=b".toList).isSome :=
  ⟨(parse_camel_total.1 "name=John%20Doe".toList).mpr (by decide),
   parse_camel_total.2.1 "a=b".toList (by decide)⟩


/-- C3: `deepClone` terminates on the cyclic object `o` with `o.self = o`:
for every fuel of at least 2 the clone completes with the same result, the
clone's `self` property is reference-identical to the clone itself (address 1
maps `self` to `ref 1`), and the hash shows the in-progress clone was
registered (entry `(0, 1)`) before the recursion resolved the cycle. -/
theorem deepClone_cycle (n : Nat) :
    deepClone (n + 2) ⟨[selfObj], []⟩ (JSVal.ref 0) =
      some (JSVal.ref 1, ⟨[selfObj, ⟨ObjKind.plain 0, [("self", JSVal.ref 1)]⟩], [(0, 1)]⟩) ∧
    getObj [selfObj, ⟨ObjKind.plain 0, [("self", JSVal.ref 1)]⟩] 1 =
      some ⟨ObjKind.plain 0, [("self", JSVal.ref 1)]⟩ := by
  constructor
  · simp [deepClone, clonePropsWith, lookupAssoc, getObj, setProp, setAssoc, selfObj]
  · decide

/-- C10: `deepClone` returns every function-typed value itself by reference
(the non-object early return treats functions like primitives), and a
function reachable inside a cloned structure is shared: the clone of an
object with a function-valued property holds the identical function
reference. -/
theorem deepClone_fn_identity :
    (∀ (fuel : Nat) (st : CSt) (i : Nat), 0 < fuel →
      deepClone fuel st (JSVal.prim (JSPrim.fn i)) = some (JSVal.prim (JSPrim.fn i), st)) ∧
    deepClone 2 ⟨[⟨ObjKind.plain 0, [("f", JSVal.prim (JSPrim.fn 7))]⟩], []⟩ (JSVal.ref 0) =
      some (JSVal.ref 1,
        ⟨[⟨ObjKind.plain 0, [("f", JSVal.prim (JSPrim.fn 7))]⟩,
          ⟨ObjKind.plain 0, [("f", JSVal.prim (JSPrim.fn 7))]⟩], [(0, 1)]⟩) := by
  constructor
  · intro fuel st i h
    match fuel, h with
    | fuel + 1, _ => rfl
  · decide

theorem deepClone_fn_identity_w :
    deepClone 1 ⟨[], []⟩ (JSVal.prim (JSPrim.fn 3)) = some (JSVal.prim (JSPrim.fn 3), ⟨[], []⟩) :=
  deepClone_fn_identity.1 1 ⟨[], []⟩ 3 (by decide)

theorem nodupKeys_iff {α : Type} [DecidableEq α] (l : List α) :
    nodupKeys l = true ↔ l.Nodup := by
  induction l with
  | nil => simp [nodupKeys]
  | cons k ks ih => simp [nodupKeys, ih]

theorem eqKeysWith_true_iff (rec : JSVal → JSVal → Option Bool)
    (psa psb : List (String × JSVal)) (ks : List String) :
    eqKeysWith rec psa psb ks = some true ↔
      ∀ k ∈ ks, k ∈ psb.map Prod.fst ∧
        rec (getPropD psa k) (getPropD psb k) = some true := by
  induction ks with
  | nil => simp [eqKeysWith]
  | cons k ks ih =>
    by_cases hc : k ∈ psb.map Prod.fst
    · have hc1 : (psb.map Prod.fst).contains k = true := List.elem_iff.mpr hc
      cases hr : rec (getPropD psa k) (getPropD psb k) with
      | none =>
        simp only [eqKeysWith, hc1, if_true, hr, List.mem_cons]
        constructor
        · intro hfalse; exact Option.noConfusion hfalse
        · intro hall
          obtain ⟨_, hrec⟩ := hall k (Or.inl rfl)
          rw [hr] at hrec; exact Option.noConfusion hrec
      | some b =>
        cases b with
        | false =>
          simp only [eqKeysWith, hc1, if_true, hr, List.mem_cons]
          constructor
          · intro hfalse
            exact absurd (Option.some.inj hfalse) (by simp)
          · intro hall
            obtain ⟨_, hrec⟩ := hall k (Or.inl rfl)
            rw [hr] at hrec
            exact absurd (Option.some.inj hrec) (by simp)
        | true =>
          simp only [eqKeysWith, hc1, if_true, hr, List.mem_cons]
          rw [ih]
          constructor
          · intro hall
            intro k1 hk1
            rcases hk1 with hk1 | hk1
            · subst hk1; exact ⟨hc, hr⟩
            · exact hall k1 hk1
          · intro hall k1 hk1
            exact hall k1 (Or.inr hk1)
    · have hc1 : (psb.map Prod.fst).contains k = false := by
        rw [← Bool.not_eq_true]
        intro hcc
        exact hc (List.elem_iff.mp hcc)
      simp only [eqKeysWith, hc1, Bool.false_eq_true, if_false, List.mem_cons]
      constructor
      · intro hfalse
        exact absurd (Option.some.inj hfalse) (by simp)
      · intro hall
        obtain ⟨hmem, _⟩ := hall k (Or.inl rfl)
        exact absurd hmem hc

theorem eqKeysSpecWith_true_iff (rec : JSVal → JSVal → Option Bool)
    (psa psb : List (String × JSVal)) (ks : List String) :
    eqKeysSpecWith rec psa psb ks = some true ↔
      ∀ k ∈ ks, rec (getPropD psa k) (getPropD psb k) = some true := by
  induction ks with
  | nil => simp [eqKeysSpecWith]
  | cons k ks ih =>
    cases hr : rec (getPropD psa k) (getPropD psb k) with
    | none =>
      simp only [eqKeysSpecWith, hr, List.mem_cons]
      constructor
      · intro hfalse; exact Option.noConfusion hfalse
      · intro hall
        have := hall k (Or.inl rfl)
        rw [hr] at this; exact Option.noConfusion this
    | some b =>
      cases hrest : eqKeysSpecWith rec psa psb ks with
      | none =>
        simp only [eqKeysSpecWith, hr, hrest, List.mem_cons]
        constructor
        · intro hfalse; exact Option.noConfusion hfalse
        · intro hall
          rw [ih.mpr (fun k1 hk1 => hall k1 (Or.inr hk1))] at hrest
          exact Option.noConfusion hrest
      | some b2 =>
        have hih := ih
        rw [hrest] at hih
        cases b with
        | false =>
          simp only [eqKeysSpecWith, hr, hrest, List.mem_cons]
          constructor
          · intro hfalse
            have := Option.some.inj hfalse
            simp at this
          · intro hall
            have := hall k (Or.inl rfl)
            rw [hr] at this
            exact absurd (Option.some.inj this) (by simp)
        | true =>
          cases b2 with
          | false =>
            simp only [eqKeysSpecWith, hr, hrest, List.mem_cons]
            constructor
            · intro hfalse
              have := Option.some.inj hfalse
              simp at this
            · intro hall
              have : eqKeysSpecWith rec psa psb ks = some true :=
                ih.mpr (fun k1 hk1 => hall k1 (Or.inr hk1))
              rw [hrest] at this
              exact absurd (Option.some.inj this) (by simp)
          | true =>
            simp only [eqKeysSpecWith, hr, hrest, List.mem_cons]
            simp only [Bool.and_self]
            constructor
            · intro _
              intro k1 hk1
              rcases hk1 with hk1 | hk1
              · subst hk1; exact hr
              · exact hih.mp (by simp) k1 hk1
            · intro _; trivial

theorem keys_subset_rev {ka kb : List String} (hna : ka.Nodup) (hnb : kb.Nodup)
    (hsub : ∀ k ∈ ka, k ∈ kb) (hlen : ka.length = kb.length) : ∀ k ∈ kb, k ∈ ka := by
  have hsub1 : ka.toFinset ⊆ kb.toFinset := fun x hx => by
    rw [List.mem_toFinset] at *
    exact hsub x hx
  have hcard : kb.toFinset.card ≤ ka.toFinset.card := by
    rw [List.toFinset_card_of_nodup hna, List.toFinset_card_of_nodup hnb]
    omega
  have heq := Finset.eq_of_subset_of_card_le hsub1 hcard
  intro k hk
  rw [← List.mem_toFinset, ← heq, List.mem_toFinset] at hk
  exact hk

theorem keys_branch_iff (fuel : Nat) (h : Heap) (psa psb : List (String × JSVal))
    (hna : (psa.map Prod.fst).Nodup) (hnb : (psb.map Prod.fst).Nodup)
    (IH : ∀ a b, deepEqual fuel h a b = some true ↔ deepEqualSpec fuel h a b = some true) :
    ((if (psa.map Prod.fst).length = (psb.map Prod.fst).length
        then eqKeysWith (deepEqual fuel h) psa psb (psa.map Prod.fst)
        else some false) = some true ↔
     (if ((psa.map Prod.fst).length = (psb.map Prod.fst).length &&
          (psa.map Prod.fst).all ((psb.map Prod.fst).contains ·) &&
          (psb.map Prod.fst).all ((psa.map Prod.fst).contains ·))
        then eqKeysSpecWith (deepEqualSpec fuel h) psa psb (psa.map Prod.fst)
        else some false) = some true) := by
  by_cases hlen : (psa.map Prod.fst).length = (psb.map Prod.fst).length
  · rw [if_pos hlen]
    constructor
    · intro hcode
      have hchar := (eqKeysWith_true_iff (deepEqual fuel h) psa psb (psa.map Prod.fst)).mp hcode
      have hsub : ∀ k ∈ psa.map Prod.fst, k ∈ psb.map Prod.fst := fun k hk => (hchar k hk).1
      have hrev := keys_subset_rev hna hnb hsub hlen
      rw [if_pos (by
        simp only [Bool.and_eq_true, decide_eq_true_eq, List.all_eq_true]
        exact ⟨⟨hlen, fun k hk => List.elem_iff.mpr (hsub k hk)⟩,
          fun k hk => List.elem_iff.mpr (hrev k hk)⟩)]
      rw [eqKeysSpecWith_true_iff]
      intro k hk
      exact (IH _ _).mp (hchar k hk).2
    · intro hspec
      by_cases hcond : ((psa.map Prod.fst).length = (psb.map Prod.fst).length &&
          (psa.map Prod.fst).all ((psb.map Prod.fst).contains ·) &&
          (psb.map Prod.fst).all ((psa.map Prod.fst).contains ·)) = true
      · rw [if_pos hcond] at hspec
        have hchar := (eqKeysSpecWith_true_iff (deepEqualSpec fuel h) psa psb (psa.map Prod.fst)).mp hspec
        simp only [Bool.and_eq_true, decide_eq_true_eq, List.all_eq_true] at hcond
        obtain ⟨⟨_, hsub⟩, _⟩ := hcond
        rw [eqKeysWith_true_iff]
        intro k hk
        exact ⟨List.elem_iff.mp (hsub k hk), (IH _ _).mpr (hchar k hk)⟩
      · rw [if_neg hcond] at hspec
        exact absurd (Option.some.inj hspec) (by simp)
  · rw [if_neg hlen, if_neg (by
      simp only [Bool.and_eq_true, decide_eq_true_eq, List.all_eq_true]
      intro hcond
      exact hlen hcond.1.1)]

theorem nodup_of_wfHeap {h : Heap} (hwf : wfHeap h = true) {a : Nat} {o : JSObj}
    (ho : getObj h a = some o) : (o.props.map Prod.fst).Nodup := by
  have hmem : o ∈ h := List.getElem?_mem ho
  rw [wfHeap, List.all_eq_true] at hwf
  exact (nodupKeys_iff _).mp (hwf o hmem)

theorem deepEqual_eq_spec : ∀ (fuel : Nat) (h : Heap), wfHeap h = true →
    ∀ a b, (deepEqual fuel h a b = some true ↔ deepEqualSpec fuel h a b = some true) := by
  intro fuel
  induction fuel with
  | zero => intro h hwf a b; simp [deepEqual, deepEqualSpec]
  | succ fuel ih =>
    intro h hwf a b
    by_cases hab : a = b
    · simp [deepEqual, deepEqualSpec, hab]
    · cases a with
      | prim p => simp [deepEqual, deepEqualSpec, hab]
      | ref ra =>
        cases b with
        | prim q => simp [deepEqual, deepEqualSpec, hab]
        | ref rb =>
          cases hoa : getObj h ra with
          | none => simp [deepEqual, deepEqualSpec, hab, hoa]
          | some oa =>
            cases hob : getObj h rb with
            | none => simp [deepEqual, deepEqualSpec, hab, hoa, hob]
            | some ob =>
              have hna := nodup_of_wfHeap hwf hoa
              have hnb := nodup_of_wfHeap hwf hob
              obtain ⟨koa, psa⟩ := oa
              obtain ⟨kob, psb⟩ := ob
              by_cases hct : ctorEq koa kob
              · cases koa with
                | date t1 =>
                  cases kob with
                  | date t2 => simp [deepEqual, deepEqualSpec, hab, hoa, hob, hct]
                  | array => simp [ctorEq] at hct
                  | regexp s2 => simp [ctorEq] at hct
                  | plain q => simp [ctorEq] at hct
                | array =>
                  cases kob with
                  | date t2 => simp [ctorEq] at hct
                  | array =>
                    have hkb := keys_branch_iff fuel h psa psb hna hnb (ih h hwf)
                    simpa [deepEqual, deepEqualSpec, hab, hoa, hob, hct] using hkb
                  | regexp s2 => simp [ctorEq] at hct
                  | plain q => simp [ctorEq] at hct
                | regexp s1 =>
                  cases kob with
                  | date t2 => simp [ctorEq] at hct
                  | array => simp [ctorEq] at hct
                  | regexp s2 => simp [deepEqual, deepEqualSpec, hab, hoa, hob, hct]
                  | plain q => simp [ctorEq] at hct
                | plain p =>
                  cases kob with
                  | date t2 => simp [ctorEq] at hct
                  | array => simp [ctorEq] at hct
                  | regexp s2 => simp [ctorEq] at hct
                  | plain q =>
                    have hkb := keys_branch_iff fuel h psa psb hna hnb (ih h hwf)
                    simpa [deepEqual, deepEqualSpec, hab, hoa, hob, hct] using hkb
              · simp [deepEqual, deepEqualSpec, hab, hoa, hob, hct]


/-- C5: `deepEqual` returns true exactly as the spec describes — true iff
the values are identical, or are both non-null objects of the same concrete
kind (same constructor; Dates equal iff same instant, RegExps equal iff same
canonical string) whose own enumerable key-name sets have equal cardinality
and identical membership and whose corresponding values are recursively
equal (`deepEqualSpec`) — for every heap whose objects have distinct keys,
as JS objects always do; in particular the two `{a:1,b:{c:2}}` objects are
equal, `{a:1,b:{c:2}}` and `{a:1,b:{c:3}}` are not, and two `new Date(5)`
objects are equal. -/
theorem deepEqual_contract :
    (∀ (fuel : Nat) (h : Heap) (a b : JSVal), wfHeap h = true →
      (deepEqual fuel h a b = some true ↔ deepEqualSpec fuel h a b = some true)) ∧
    deepEqual 3 exHeap (JSVal.ref 1) (JSVal.ref 3) = some true ∧
    deepEqual 3 exHeap (JSVal.ref 1) (JSVal.ref 5) = some false ∧
    deepEqual 2 exHeap (JSVal.ref 6) (JSVal.ref 7) = some true := by
  refine ⟨fun fuel h a b hwf => deepEqual_eq_spec fuel h hwf a b, by decide, by decide, by decide⟩

theorem deepEqual_contract_w :
    deepEqualSpec 3 exHeap (JSVal.ref 1) (JSVal.ref 3) = some true :=
  (deepEqual_contract.1 3 exHeap (JSVal.ref 1) (JSVal.ref 3) (by decide)).mp (by decide)

theorem lookupAssoc_eq_none_iff {α β : Type} [DecidableEq α] (l : List (α × β)) (k : α) :
    lookupAssoc l k = none ↔ k ∉ l.map Prod.fst := by
  induction l with
  | nil => simp [lookupAssoc]
  | cons p r ih =>
    obtain ⟨k1, v1⟩ := p
    by_cases h : k1 = k
    · simp [lookupAssoc, h]
    · simp only [lookupAssoc, if_neg h, ih, List.map_cons, List.mem_cons]
      constructor
      · intro hn hor
        rcases hor with he | hm
        · exact h he.symm
        · exact hn hm
      · intro hn hm
        exact hn (Or.inr hm)

theorem getObj_append_lt {h : Heap} (h2 : Heap) {a : Nat} (ha : a < h.length) :
    getObj (h ++ h2) a = getObj h a := by
  simp [getObj, List.getElem?_append, ha]

theorem getObj_snoc_self (h : Heap) (o : JSObj) :
    getObj (h ++ [o]) h.length = some o := by
  simp [getObj]

theorem getObj_lt_length {h : Heap} {a : Nat} {o : JSObj} (ho : getObj h a = some o) :
    a < h.length := by
  by_contra hge
  rw [getObj, List.getElem?_eq_none (by omega)] at ho
  exact Option.noConfusion ho

theorem length_setProp (h : Heap) (c : Nat) (k : String) (v : JSVal) :
    (setProp h c k v).length = h.length := by
  rw [setProp]
  cases h[c]? <;> simp

theorem getObj_setProp_ne (h : Heap) {c a : Nat} (k : String) (v : JSVal) (hne : a ≠ c) :
    getObj (setProp h c k v) a = getObj h a := by
  rw [setProp]
  cases hc : h[c]? with
  | none => rfl
  | some o =>
    rw [getObj, List.getElem?_set_ne (fun he => hne he.symm)]
    rfl

theorem getObj_setProp_self {h : Heap} {c : Nat} {o : JSObj} (k : String) (v : JSVal)
    (hc : getObj h c = some o) :
    getObj (setProp h c k v) c = some ⟨o.kind, setAssoc o.props k v⟩ := by
  rw [setProp, show h[c]? = some o from hc, getObj,
    List.getElem?_set_self (getObj_lt_length hc)]

theorem setAssoc_not_mem {l : List (String × JSVal)} {k : String} (v : JSVal)
    (hk : k ∉ l.map Prod.fst) : setAssoc l k v = l ++ [(k, v)] := by
  induction l with
  | nil => rfl
  | cons p r ih =>
    obtain ⟨k1, v1⟩ := p
    have h1 : k1 ≠ k := fun he => hk (by simp [he])
    have h2 : k ∉ r.map Prod.fst := fun hm => hk (by simp [hm])
    simp [setAssoc, h1, ih h2]

theorem rep_induction {h : Heap}
    (motive1 : JSVal → JSTree → List Nat → Prop)
    (motive2 : List (String × JSVal) → List (String × JSTree) → List Nat → Prop)
    (hprim : ∀ p, motive1 (JSVal.prim p) (JSTree.prim p) [])
    (hdate : ∀ a t, getObj h a = some ⟨ObjKind.date t, []⟩ →
      motive1 (JSVal.ref a) (JSTree.date t) [a])
    (hregexp : ∀ a s, getObj h a = some ⟨ObjKind.regexp s, []⟩ →
      motive1 (JSVal.ref a) (JSTree.regexp s) [a])
    (harr : ∀ a ts ps as1, getObj h a = some ⟨ObjKind.array, ps⟩ →
      repProps h ps (idxProps ts) as1 → a ∉ as1 → motive2 ps (idxProps ts) as1 →
      motive1 (JSVal.ref a) (JSTree.arr ts) (a :: as1))
    (hobj : ∀ a pid kts ps as1, getObj h a = some ⟨ObjKind.plain pid, ps⟩ →
      repProps h ps kts as1 → a ∉ as1 → motive2 ps kts as1 →
      motive1 (JSVal.ref a) (JSTree.obj pid kts) (a :: as1))
    (hnil : motive2 [] [] [])
    (hcons : ∀ k v t ps kts as1 as2, repT h v t as1 → repProps h ps kts as2 →
      (∀ x ∈ as1, x ∉ as2) → motive1 v t as1 → motive2 ps kts as2 →
      motive2 ((k, v) :: ps) ((k, t) :: kts) (as1 ++ as2)) :
    (∀ (v : JSVal) (t : JSTree) (addrs : List Nat), repT h v t addrs → motive1 v t addrs) ∧
    (∀ (ps : List (String × JSVal)) (kts : List (String × JSTree)) (addrs : List Nat),
      repProps h ps kts addrs → motive2 ps kts addrs) := by
  constructor
  · intro v t addrs hr
    exact @repT.rec h (fun v t addrs _ => motive1 v t addrs)
      (fun ps kts addrs _ => motive2 ps kts addrs)
      hprim hdate hregexp
      (fun a ts ps as1 h1 h2 h3 ih => harr a ts ps as1 h1 h2 h3 ih)
      (fun a pid kts ps as1 h1 h2 h3 ih => hobj a pid kts ps as1 h1 h2 h3 ih)
      hnil
      (fun k v t ps kts as1 as2 h1 h2 h3 ih1 ih2 => hcons k v t ps kts as1 as2 h1 h2 h3 ih1 ih2)
      v t addrs hr
  · intro ps kts addrs hr
    exact @repProps.rec h (fun v t addrs _ => motive1 v t addrs)
      (fun ps kts addrs _ => motive2 ps kts addrs)
      hprim hdate hregexp
      (fun a ts ps as1 h1 h2 h3 ih => harr a ts ps as1 h1 h2 h3 ih)
      (fun a pid kts ps as1 h1 h2 h3 ih => hobj a pid kts ps as1 h1 h2 h3 ih)
      hnil
      (fun k v t ps kts as1 as2 h1 h2 h3 ih1 ih2 => hcons k v t ps kts as1 as2 h1 h2 h3 ih1 ih2)
      ps kts addrs hr

theorem rep_agrees {h h2 : Heap} :
    (∀ (v : JSVal) (t : JSTree) (addrs : List Nat), repT h v t addrs →
      (∀ a ∈ addrs, getObj h2 a = getObj h a) → repT h2 v t addrs) ∧
    (∀ (ps : List (String × JSVal)) (kts : List (String × JSTree)) (addrs : List Nat),
      repProps h ps kts addrs →
      (∀ a ∈ addrs, getObj h2 a = getObj h a) → repProps h2 ps kts addrs) := by
  refine rep_induction
    (fun v t addrs => (∀ a ∈ addrs, getObj h2 a = getObj h a) → repT h2 v t addrs)
    (fun ps kts addrs => (∀ a ∈ addrs, getObj h2 a = getObj h a) → repProps h2 ps kts addrs)
    ?_ ?_ ?_ ?_ ?_ ?_ ?_
  · intro p _
    exact repT.prim h2 p
  · intro a t hget hag
    exact repT.date h2 a t (by rw [hag a (by simp)]; exact hget)
  · intro a s hget hag
    exact repT.regexp h2 a s (by rw [hag a (by simp)]; exact hget)
  · intro a ts ps as1 hget _ hnot ih hag
    exact repT.arr h2 a ts ps as1 (by rw [hag a (by simp)]; exact hget)
      (ih (fun x hx => hag x (by simp [hx]))) hnot
  · intro a pid kts ps as1 hget _ hnot ih hag
    exact repT.obj h2 a pid kts ps as1 (by rw [hag a (by simp)]; exact hget)
      (ih (fun x hx => hag x (by simp [hx]))) hnot
  · intro _
    exact repProps.nil h2
  · intro k v t ps kts as1 as2 _ _ hdisj ih1 ih2 hag
    exact repProps.cons h2 k v t ps kts as1 as2
      (ih1 (fun x hx => hag x (by simp [hx])))
      (ih2 (fun x hx => hag x (by simp [hx])))
      hdisj

theorem rep_addr_bound {h : Heap} :
    (∀ (v : JSVal) (t : JSTree) (addrs : List Nat), repT h v t addrs →
      ∀ a ∈ addrs, a < h.length) ∧
    (∀ (ps : List (String × JSVal)) (kts : List (String × JSTree)) (addrs : List Nat),
      repProps h ps kts addrs → ∀ a ∈ addrs, a < h.length) := by
  refine rep_induction
    (fun _ _ addrs => ∀ a ∈ addrs, a < h.length)
    (fun _ _ addrs => ∀ a ∈ addrs, a < h.length)
    ?_ ?_ ?_ ?_ ?_ ?_ ?_
  · simp
  · intro a t hget x hx
    simp at hx
    subst hx
    exact getObj_lt_length hget
  · intro a s hget x hx
    simp at hx
    subst hx
    exact getObj_lt_length hget
  · intro a ts ps as1 hget _ _ ih x hx
    rcases List.mem_cons.mp hx with he | hm
    · subst he; exact getObj_lt_length hget
    · exact ih x hm
  · intro a pid kts ps as1 hget _ _ ih x hx
    rcases List.mem_cons.mp hx with he | hm
    · subst he; exact getObj_lt_length hget
    · exact ih x hm
  · simp
  · intro k v t ps kts as1 as2 _ _ _ ih1 ih2 x hx
    rcases List.mem_append.mp hx with hm | hm
    · exact ih1 x hm
    · exact ih2 x hm

theorem repProps_keys {h : Heap} :
    ∀ (ps : List (String × JSVal)) (kts : List (String × JSTree)) (addrs : List Nat),
      repProps h ps kts addrs → ps.map Prod.fst = kts.map Prod.fst :=
  (rep_induction (fun _ _ _ => True)
    (fun ps kts _ => ps.map Prod.fst = kts.map Prod.fst)
    (fun _ => trivial) (fun _ _ _ => trivial) (fun _ _ _ => trivial)
    (fun _ _ _ _ _ _ _ _ => trivial) (fun _ _ _ _ _ _ _ _ _ => trivial)
    rfl
    (fun k _ _ _ _ _ _ _ _ _ _ ih2 => by simp [ih2])).2

theorem repProps_lookup {h : Heap} :
    ∀ (ps : List (String × JSVal)) (kts : List (String × JSTree)) (addrs : List Nat),
      repProps h ps kts addrs →
      ∀ k v, lookupAssoc ps k = some v →
        ∃ t1, lookupAssoc kts k = some t1 ∧ t1 ∈ kts.map Prod.snd ∧
          ∃ as1, repT h v t1 as1 ∧ (∀ x ∈ as1, x ∈ addrs) :=
  (rep_induction (fun _ _ _ => True)
    (fun ps kts addrs => ∀ k v, lookupAssoc ps k = some v →
      ∃ t1, lookupAssoc kts k = some t1 ∧ t1 ∈ kts.map Prod.snd ∧
        ∃ as1, repT h v t1 as1 ∧ (∀ x ∈ as1, x ∈ addrs))
    (fun _ => trivial) (fun _ _ _ => trivial) (fun _ _ _ => trivial)
    (fun _ _ _ _ _ _ _ _ => trivial) (fun _ _ _ _ _ _ _ _ _ => trivial)
    (fun k v hlk => by simp [lookupAssoc] at hlk)
    (fun k1 v1 t1 ps kts as1 as2 hv hps _ _ ih2 => by
      intro k v hlk
      by_cases hk : k1 = k
      · subst hk
        rw [lookupAssoc, if_pos rfl] at hlk
        injection hlk with hlk
        subst hlk
        refine ⟨t1, by rw [lookupAssoc, if_pos rfl], by simp, as1, hv, ?_⟩
        intro x hx
        simp [hx]
      · rw [lookupAssoc, if_neg hk] at hlk
        obtain ⟨t2, hl2, hm2, as3, hrep3, hsub3⟩ := ih2 k v hlk
        refine ⟨t2, by rw [lookupAssoc, if_neg hk]; exact hl2, by simp [hm2], as3, hrep3, ?_⟩
        intro x hx
        simp [hsub3 x hx])).2

theorem lookupAssoc_isSome_of_mem {α β : Type} [DecidableEq α] {l : List (α × β)} {k : α}
    (hk : k ∈ l.map Prod.fst) : ∃ v, lookupAssoc l k = some v := by
  induction l with
  | nil => simp at hk
  | cons p r ih =>
    obtain ⟨k1, v1⟩ := p
    by_cases h : k1 = k
    · exact ⟨v1, by rw [lookupAssoc, if_pos h]⟩
    · have : k ∈ r.map Prod.fst := by
        simp at hk
        rcases hk with he | hm
        · exact absurd he.symm h
        · simpa using hm
      obtain ⟨v, hv⟩ := ih this
      exact ⟨v, by rw [lookupAssoc, if_neg h]; exact hv⟩

theorem depth_of_mem_props {t1 : JSTree} :
    ∀ (kts : List (String × JSTree)), t1 ∈ kts.map Prod.snd → treeDepth t1 ≤ propsDepth kts := by
  intro kts
  induction kts with
  | nil => simp
  | cons p r ih =>
    obtain ⟨k1, t2⟩ := p
    intro hm
    simp only [List.map_cons, List.mem_cons] at hm
    rw [propsDepth]
    rcases hm with he | hm
    · subst he; simp
    · have := ih (by simpa using hm)
      omega

theorem depth_of_mem_list {t1 : JSTree} :
    ∀ (ts : List JSTree), t1 ∈ ts → treeDepth t1 ≤ listDepth ts := by
  intro ts
  induction ts with
  | nil => simp
  | cons t2 r ih =>
    intro hm
    rw [listDepth]
    rcases List.mem_cons.mp hm with he | hm
    · subst he; simp
    · have := ih hm
      omega

theorem idxProps_snd (ts : List JSTree) : (idxProps ts).map Prod.snd = ts := by
  rw [idxProps, List.map_snd_zip]
  rw [idxKeys, List.length_map, List.length_range]

theorem deepEqual_rep : ∀ (fuel : Nat) (h : Heap) (t : JSTree), treeDepth t < fuel →
    ∀ va vb asa asb, repT h va t asa → repT h vb t asb →
    deepEqual fuel h va vb = some true := by
  intro fuel
  induction fuel with
  | zero => intro h t hd; omega
  | succ fuel ih =>
    intro h t hd va vb asa asb hra hrb
    by_cases hab : va = vb
    · simp [deepEqual, hab]
    · cases hra with
      | prim p =>
        cases hrb with
        | prim => exact absurd rfl hab
      | date a tt hgeta =>
        cases hrb with
        | date b _ hgetb =>
          simp [deepEqual, hab, hgeta, hgetb, ctorEq]
      | regexp a s hgeta =>
        cases hrb with
        | regexp b _ hgetb =>
          simp [deepEqual, hab, hgeta, hgetb, ctorEq]
      | arr a ts psa asa1 hgeta hpropsa hnota =>
        cases hrb with
        | arr b _ psb asb1 hgetb hpropsb hnotb =>
          have hka := repProps_keys psa (idxProps ts) asa1 hpropsa
          have hkb := repProps_keys psb (idxProps ts) asb1 hpropsb
          simp only [deepEqual, if_neg hab, hgeta, hgetb, ctorEq]
          rw [if_pos trivial]
          rw [if_pos (by rw [hka, hkb])]
          rw [eqKeysWith_true_iff]
          intro k hk
          constructor
          · rw [hkb, ← hka]; exact hk
          · obtain ⟨v1, hv1⟩ := lookupAssoc_isSome_of_mem hk
            obtain ⟨v2, hv2⟩ := lookupAssoc_isSome_of_mem (by rw [hkb, ← hka]; exact hk)
            obtain ⟨t1, hl1, hm1, as1, hrep1, _⟩ := repProps_lookup psa (idxProps ts) asa1 hpropsa k v1 hv1
            obtain ⟨t2, hl2, hm2, as2, hrep2, _⟩ := repProps_lookup psb (idxProps ts) asb1 hpropsb k v2 hv2
            rw [hl1] at hl2
            injection hl2 with hl2
            subst hl2
            have hdep : treeDepth t1 < fuel := by
              have h1 : t1 ∈ ts := by rw [← idxProps_snd ts]; exact hm1
              have h2 := depth_of_mem_list ts h1
              rw [treeDepth] at hd
              omega
            rw [getPropD, hv1, getPropD, hv2]
            exact ih h t1 hdep v1 v2 as1 as2 hrep1 hrep2
      | obj a pid kts psa asa1 hgeta hpropsa hnota =>
        cases hrb with
        | obj b _ _ psb asb1 hgetb hpropsb hnotb =>
          have hka := repProps_keys psa kts asa1 hpropsa
          have hkb := repProps_keys psb kts asb1 hpropsb
          simp only [deepEqual, if_neg hab, hgeta, hgetb, ctorEq]
          rw [if_pos (by trivial)]
          rw [if_pos (by rw [hka, hkb])]
          rw [eqKeysWith_true_iff]
          intro k hk
          constructor
          · rw [hkb, ← hka]; exact hk
          · obtain ⟨v1, hv1⟩ := lookupAssoc_isSome_of_mem hk
            obtain ⟨v2, hv2⟩ := lookupAssoc_isSome_of_mem (by rw [hkb, ← hka]; exact hk)
            obtain ⟨t1, hl1, hm1, as1, hrep1, _⟩ := repProps_lookup psa kts asa1 hpropsa k v1 hv1
            obtain ⟨t2, hl2, hm2, as2, hrep2, _⟩ := repProps_lookup psb kts asb1 hpropsb k v2 hv2
            rw [hl1] at hl2
            injection hl2 with hl2
            subst hl2
            have hdep : treeDepth t1 < fuel := by
              have h2 := depth_of_mem_props kts hm1
              rw [treeDepth] at hd
              omega
            rw [getPropD, hv1, getPropD, hv2]
            exact ih h t1 hdep v1 v2 as1 as2 hrep1 hrep2



theorem cloneProps_step (fuel : Nat) (hIH : CloneOk fuel) :
    ∀ (ps : List (String × JSVal)) (kts : List (String × JSTree)) (addrs : List Nat)
      (st : CSt) (caddr : Nat) (ck : ObjKind) (accP : List (String × JSVal)),
    propsDepth kts < fuel →
    wfP kts = true →
    nodupKeys (kts.map Prod.fst) = true →
    (∀ k1 ∈ kts.map Prod.fst, k1 ∉ accP.map Prod.fst) →
    repProps st.heap ps kts addrs →
    (∀ a ∈ addrs, lookupAssoc st.hash a = none) →
    (∀ a ∈ addrs, a < caddr) →
    caddr < st.heap.length →
    getObj st.heap caddr = some ⟨ck, accP⟩ →
    ∃ st2 newPs newAddrs,
      clonePropsWith (deepClone fuel) ps caddr st = some st2 ∧
      st.heap.length ≤ st2.heap.length ∧
      (∀ i, i < st.heap.length → i ≠ caddr → getObj st2.heap i = getObj st.heap i) ∧
      (∀ x, x ∈ st2.hash.map Prod.fst ↔ x ∈ addrs ∨ x ∈ st.hash.map Prod.fst) ∧
      getObj st2.heap caddr = some ⟨ck, accP ++ newPs⟩ ∧
      repProps st2.heap newPs kts newAddrs ∧
      (∀ a2 ∈ newAddrs, st.heap.length ≤ a2) := by
  intro ps
  induction ps with
  | nil =>
    intro kts addrs st caddr ck accP _ _ _ _ hrep _ _ _ hca
    cases hrep with
    | nil =>
      refine ⟨st, [], [], rfl, le_refl _, fun i _ _ => rfl, fun x => by simp, by simpa using hca,
        repProps.nil st.heap, by simp⟩
  | cons p ps' ih =>
    intro kts addrs st caddr ck accP hdep hwfp hnod hdisjacc hrep hmiss hlt hcal hca
    obtain ⟨k, v1⟩ := p
    cases hrep with
    | cons _ _ t1 _ kts' as1 as2 hv hps hdisj =>
      have hdept1 : treeDepth t1 < fuel := by
        rw [propsDepth] at hdep
        omega
      have hwft1 : wfT t1 = true := by
        rw [wfP, Bool.and_eq_true] at hwfp
        exact hwfp.1
      obtain ⟨cv, stc, cvAddrs, hclone, hlen1, hpres1, hdom1, hrepc, hfresh1⟩ :=
        hIH t1 v1 as1 st hdept1 hwft1 hv
          (fun a ha => hmiss a (by simp [ha]))
      have hcvbound : ∀ a ∈ cvAddrs, a < stc.heap.length :=
        rep_addr_bound.1 cv t1 cvAddrs hrepc
      have hcvne : ∀ a ∈ cvAddrs, a ≠ caddr := by
        intro a ha he
        have := hfresh1 a ha
        omega
      -- the state after assigning the cloned property onto the clone
      have hgetc : getObj stc.heap caddr = some ⟨ck, accP⟩ := by
        rw [hpres1 caddr hcal, hca]
      have hknotacc : k ∉ accP.map Prod.fst := hdisjacc k (by simp)
      have hset : getObj (setProp stc.heap caddr k cv) caddr =
          some ⟨ck, accP ++ [(k, cv)]⟩ := by
        rw [getObj_setProp_self k cv hgetc, setAssoc_not_mem cv hknotacc]
      have hlenset : (setProp stc.heap caddr k cv).length = stc.heap.length :=
        length_setProp _ _ _ _
      have hrepc1 : repT (setProp stc.heap caddr k cv) cv t1 cvAddrs :=
        rep_agrees.1 cv t1 cvAddrs hrepc
          (fun a ha => getObj_setProp_ne stc.heap k cv (hcvne a ha))
      -- conditions for the tail call
      have hnod' : nodupKeys (kts'.map Prod.fst) = true := by
        simp only [List.map_cons, nodupKeys, Bool.and_eq_true] at hnod
        exact hnod.2
      have hknotkts' : k ∉ kts'.map Prod.fst := by
        simp only [List.map_cons, nodupKeys, Bool.and_eq_true, Bool.not_eq_true'] at hnod
        intro hm
        have h1 : (kts'.map Prod.fst).contains k = true := List.elem_iff.mpr hm
        rw [hnod.1] at h1
        exact Bool.noConfusion h1
      have hdisjacc' : ∀ k1 ∈ kts'.map Prod.fst, k1 ∉ (accP ++ [(k, cv)]).map Prod.fst := by
        intro k1 hk1
        simp only [List.map_append, List.mem_append]
        intro hor
        rcases hor with hm | hm
        · exact hdisjacc k1 (by simp [hk1]) hm
        · simp at hm
          subst hm
          exact hknotkts' hk1
      have hreps' : repProps (setProp stc.heap caddr k cv) ps' kts' as2 := by
        refine rep_agrees.2 ps' kts' as2 hps ?_
        intro a ha
        have halt : a < caddr := hlt a (by simp [ha])
        rw [getObj_setProp_ne stc.heap k cv (by omega), hpres1 a (by omega)]
      have hmiss' : ∀ a ∈ as2, lookupAssoc stc.hash a = none := by
        intro a ha
        rw [lookupAssoc_eq_none_iff]
        rw [hdom1 a]
        intro hor
        rcases hor with hm | hm
        · exact hdisj a hm ha
        · have := hmiss a (by simp [ha])
          rw [lookupAssoc_eq_none_iff] at this
          exact this hm
      obtain ⟨st2, newPs', newAddrs', hcp2, hlen2, hpres2, hdom2, hca2, hreps2, hfresh2⟩ :=
        ih kts' as2 ⟨setProp stc.heap caddr k cv, stc.hash⟩ caddr ck (accP ++ [(k, cv)])
          (by rw [propsDepth] at hdep; omega)
          (by rw [wfP, Bool.and_eq_true] at hwfp; exact hwfp.2)
          hnod' hdisjacc' hreps' hmiss'
          (fun a ha => hlt a (by simp [ha]))
          (by simpa [hlenset] using lt_of_lt_of_le hcal hlen1)
          hset
      refine ⟨st2, (k, cv) :: newPs', cvAddrs ++ newAddrs', ?_, ?_, ?_, ?_, ?_, ?_, ?_⟩
      · rw [clonePropsWith, hclone]
        exact hcp2
      · simp only at hlen2
        rw [hlenset] at hlen2
        omega
      · intro i hi hine
        have h1 : getObj st2.heap i = getObj (setProp stc.heap caddr k cv) i := by
          apply hpres2 i _ hine
          simp only [hlenset]
          omega
        rw [h1, getObj_setProp_ne stc.heap k cv hine, hpres1 i hi]
      · intro x
        rw [hdom2 x]
        simp only at hdom1 ⊢
        rw [hdom1 x]
        simp only [List.mem_append]
        tauto
      · rw [hca2]
        simp
      · refine repProps.cons st2.heap k cv t1 newPs' kts' cvAddrs newAddrs' ?_ hreps2 ?_
        · refine rep_agrees.1 cv t1 cvAddrs hrepc1 ?_
          intro a ha
          apply hpres2 a _ (hcvne a ha)
          simp only [hlenset]
          exact hcvbound a ha
        · intro x hx hx2
          have h1 := hcvbound x hx
          have h2 := hfresh2 x hx2
          simp only [hlenset] at h2
          omega
      · intro a2 ha2
        rcases List.mem_append.mp ha2 with hm | hm
        · exact hfresh1 a2 hm
        · have := hfresh2 a2 hm
          simp only [hlenset] at this
          omega

theorem propsDepth_zip (ks : List String) :
    ∀ (ts : List JSTree), propsDepth (ks.zip ts) ≤ listDepth ts := by
  induction ks with
  | nil => intro ts; simp [propsDepth]
  | cons k ks ih =>
    intro ts
    cases ts with
    | nil => simp [propsDepth]
    | cons t ts' =>
      rw [List.zip_cons_cons, propsDepth, listDepth]
      have := ih ts'
      omega

theorem wfP_zip (ks : List String) :
    ∀ (ts : List JSTree), wfL ts = true → wfP (ks.zip ts) = true := by
  induction ks with
  | nil => intro ts _; rfl
  | cons k ks ih =>
    intro ts hwf
    cases ts with
    | nil => rfl
    | cons t ts' =>
      rw [List.zip_cons_cons, wfP]
      rw [wfL, Bool.and_eq_true] at hwf
      rw [hwf.1, ih ts' hwf.2]
      rfl

theorem idxProps_fst (ts : List JSTree) : (idxProps ts).map Prod.fst = idxKeys ts.length := by
  rw [idxProps, List.map_fst_zip]
  rw [idxKeys, List.length_map, List.length_range]

theorem cloneOk_all : ∀ fuel, CloneOk fuel := by
  intro fuel
  induction fuel with
  | zero => intro t v addrs st hd; omega
  | succ fuel ih =>
    intro t v addrs st hd hwf hrep hmiss
    cases hrep with
    | prim p =>
      exact ⟨JSVal.prim p, st, [], rfl, le_refl _, fun i _ => rfl, fun x => by simp,
        repT.prim st.heap p, by simp⟩
    | date a tt hget =>
      have hmA : lookupAssoc st.hash a = none := hmiss a (by simp)
      refine ⟨JSVal.ref st.heap.length,
        ⟨st.heap ++ [⟨ObjKind.date tt, []⟩], (a, st.heap.length) :: st.hash⟩,
        [st.heap.length], ?_, by simp, ?_, ?_, ?_, by simp⟩
      · simp only [deepClone, hmA, hget]
        rfl
      · intro i hi
        exact getObj_append_lt _ hi
      · intro x
        simp
      · exact repT.date _ st.heap.length tt (getObj_snoc_self st.heap _)
    | regexp a s hget =>
      have hmA : lookupAssoc st.hash a = none := hmiss a (by simp)
      refine ⟨JSVal.ref st.heap.length,
        ⟨st.heap ++ [⟨ObjKind.regexp s, []⟩], (a, st.heap.length) :: st.hash⟩,
        [st.heap.length], ?_, by simp, ?_, ?_, ?_, by simp⟩
      · simp only [deepClone, hmA, hget]
        rfl
      · intro i hi
        exact getObj_append_lt _ hi
      · intro x
        simp
      · exact repT.regexp _ st.heap.length s (getObj_snoc_self st.heap _)
    | arr a ts psa as1 hget hprops hnot =>
      have hmA : lookupAssoc st.hash a = none := hmiss a (by simp)
      have hbound := rep_addr_bound.2 psa (idxProps ts) as1 hprops
      rw [wfT, Bool.and_eq_true] at hwf
      rw [treeDepth] at hd
      obtain ⟨st2, newPs, newAddrs, hcp2, hlen2, hpres2, hdom2, hca2, hreps2, hfresh2⟩ :=
        cloneProps_step fuel ih psa (idxProps ts) as1
          ⟨st.heap ++ [⟨ObjKind.array, []⟩], (a, st.heap.length) :: st.hash⟩
          st.heap.length ObjKind.array []
          (lt_of_le_of_lt (propsDepth_zip _ ts) (by omega))
          (wfP_zip _ ts hwf.2)
          (by rw [idxProps_fst]; exact hwf.1)
          (by simp)
          (rep_agrees.2 psa (idxProps ts) as1 hprops
            (fun x hx => getObj_append_lt _ (hbound x hx)))
          (by
            intro x hx
            have hxa : a ≠ x := fun he => hnot (he ▸ hx)
            simp only [lookupAssoc, if_neg hxa]
            exact hmiss x (by simp [hx]))
          (fun x hx => hbound x hx)
          (by simp)
          (getObj_snoc_self st.heap _)
      refine ⟨JSVal.ref st.heap.length, st2, st.heap.length :: newAddrs, ?_, ?_, ?_, ?_, ?_, ?_⟩
      · simp only [deepClone, hmA, hget]
        rw [hcp2]
      · simp only [List.length_append, List.length_cons, List.length_nil] at hlen2
        omega
      · intro i hi
        rw [hpres2 i (by simp; omega) (by omega), getObj_append_lt _ hi]
      · intro x
        rw [hdom2 x]
        simp only [List.map_cons, List.mem_cons]
        tauto
      · refine repT.arr st2.heap st.heap.length ts newPs newAddrs ?_ hreps2 ?_
        · simpa using hca2
        · intro hmem
          have := hfresh2 st.heap.length hmem
          simp at this
      · intro a2 ha2
        rcases List.mem_cons.mp ha2 with he | hm
        · omega
        · have := hfresh2 a2 hm
          simp at this
          omega
    | obj a pid kts psa as1 hget hprops hnot =>
      have hmA : lookupAssoc st.hash a = none := hmiss a (by simp)
      have hbound := rep_addr_bound.2 psa kts as1 hprops
      rw [wfT, Bool.and_eq_true] at hwf
      rw [treeDepth] at hd
      obtain ⟨st2, newPs, newAddrs, hcp2, hlen2, hpres2, hdom2, hca2, hreps2, hfresh2⟩ :=
        cloneProps_step fuel ih psa kts as1
          ⟨st.heap ++ [⟨ObjKind.plain pid, []⟩], (a, st.heap.length) :: st.hash⟩
          st.heap.length (ObjKind.plain pid) []
          (by omega)
          hwf.2
          hwf.1
          (by simp)
          (rep_agrees.2 psa kts as1 hprops
            (fun x hx => getObj_append_lt _ (hbound x hx)))
          (by
            intro x hx
            have hxa : a ≠ x := fun he => hnot (he ▸ hx)
            simp only [lookupAssoc, if_neg hxa]
            exact hmiss x (by simp [hx]))
          (fun x hx => hbound x hx)
          (by simp)
          (getObj_snoc_self st.heap _)
      refine ⟨JSVal.ref st.heap.length, st2, st.heap.length :: newAddrs, ?_, ?_, ?_, ?_, ?_, ?_⟩
      · simp only [deepClone, hmA, hget]
        rw [hcp2]
      · simp only [List.length_append, List.length_cons, List.length_nil] at hlen2
        omega
      · intro i hi
        rw [hpres2 i (by simp; omega) (by omega), getObj_append_lt _ hi]
      · intro x
        rw [hdom2 x]
        simp only [List.map_cons, List.mem_cons]
        tauto
      · refine repT.obj st2.heap st.heap.length pid kts newPs newAddrs ?_ hreps2 ?_
        · simpa using hca2
        · intro hmem
          have := hfresh2 st.heap.length hmem
          simp at this
      · intro a2 ha2
        rcases List.mem_cons.mp ha2 with he | hm
        · omega
        · have := hfresh2 a2 hm
          simp at this
          omega

/-- C4: for every acyclic plain value (a well-formed value tree represented
in the heap), `deepClone` succeeds and `deepEqual` holds between the original
and the clone, the clone represents the same tree, and for every object-typed
value the clone is not reference-identical to the original (its address is
freshly allocated). -/
theorem deepClone_roundtrip :
    ∀ (t : JSTree) (v : JSVal) (addrs : List Nat) (h : Heap),
      wfT t = true → repT h v t addrs →
      ∃ w st2 addrs2,
        deepClone (treeDepth t + 1) ⟨h, []⟩ v = some (w, st2) ∧
        deepEqual (treeDepth t + 1) st2.heap v w = some true ∧
        repT st2.heap w t addrs2 ∧
        ((∀ p : JSPrim, t ≠ JSTree.prim p) → w ≠ v) := by
  intro t v addrs h hwf hrep
  obtain ⟨w, st2, addrs2, hcl, hlen, hpres, hdom, hrepw, hfresh⟩ :=
    cloneOk_all (treeDepth t + 1) t v addrs ⟨h, []⟩ (by omega) hwf hrep
      (fun a _ => rfl)
  have hbound := rep_addr_bound.1 v t addrs hrep
  have hrepv2 : repT st2.heap v t addrs :=
    rep_agrees.1 v t addrs hrep (fun a ha => hpres a (hbound a ha))
  refine ⟨w, st2, addrs2, hcl, ?_, hrepw, ?_⟩
  · exact deepEqual_rep (treeDepth t + 1) st2.heap t (by omega) v w addrs addrs2 hrepv2 hrepw
  · intro hne heq
    have hva : ∃ a, v = JSVal.ref a ∧ a < h.length := by
      cases hrep with
      | prim p2 => exact absurd rfl (hne p2)

      | date a tt hget => exact ⟨a, rfl, getObj_lt_length hget⟩
      | regexp a s hget => exact ⟨a, rfl, getObj_lt_length hget⟩
      | arr a ts ps as1 hget _ _ => exact ⟨a, rfl, getObj_lt_length hget⟩
      | obj a pid kts ps as1 hget _ _ => exact ⟨a, rfl, getObj_lt_length hget⟩
    obtain ⟨a, hv, hlt⟩ := hva
    subst hv
    rw [heq] at hrepw
    have hge : (⟨h, []⟩ : CSt).heap.length ≤ a := by
      cases hrepw with
      | date _ _ _ => exact hfresh a (by simp)
      | regexp _ _ _ => exact hfresh a (by simp)
      | arr _ _ _ _ _ _ _ => exact hfresh a (by simp)
      | obj _ _ _ _ _ _ _ => exact hfresh a (by simp)
    simp only at hge
    omega



theorem deepClone_roundtrip_w :
    ∃ w st2 addrs2,
      deepClone 2 ⟨exTreeHeap, []⟩ (JSVal.ref 0) = some (w, st2) ∧
      deepEqual 2 st2.heap (JSVal.ref 0) w = some true ∧
      repT st2.heap w exTree addrs2 ∧
      ((∀ p : JSPrim, exTree ≠ JSTree.prim p) → w ≠ JSVal.ref 0) := by
  have h := deepClone_roundtrip exTree (JSVal.ref 0) [0] exTreeHeap
    (by simp [exTree, wfT, wfP, nodupKeys])
    (repT.obj exTreeHeap 0 0 [("a", JSTree.prim (JSPrim.num 1))]
      [("a", JSVal.prim (JSPrim.num 1))] []
      rfl
      (repProps.cons exTreeHeap "a" (JSVal.prim (JSPrim.num 1)) (JSTree.prim (JSPrim.num 1))
        [] [] [] [] (repT.prim exTreeHeap (JSPrim.num 1)) (repProps.nil exTreeHeap) (by simp))
      (by simp))
  simpa [exTree, treeDepth, propsDepth] using h
